import Mathlib

/-!
Verification of the minesweeper board/game-state engine
(`src/game/cell.py`, `src/game/validator.py`, `src/game/board.py`,
`src/game/game_state.py`) against its specification.

Modelling conventions:
* The 2D list-of-lists grid `Board.cells` is embedded as a total function
  `Nat × Nat → Cell` indexed by `(row, col)`; the engine only ever touches
  in-bounds positions.
* Python's `random.sample(all_positions, mine_count)` inside
  `Board.generate_mines` is nondeterministic, so every operation that can
  trigger mine generation takes the sampled set as an explicit parameter
  `mines`; the contract that an actual sample satisfies is `SampleValid`.
* Methods that raise (`validate_position`, `random.sample` on a too-large
  request) raise *before* any mutation, so the embedding models the raising
  branches as returning the unchanged board together with the failure value.
* The `while to_reveal:` loop of `_reveal_adjacent_empty_cells` is embedded
  with an explicit fuel parameter; `flood_loop_fuel_enough`-style reasoning
  in the lemmas below shows the chosen fuel is never exhausted, so the
  embedding computes exactly what the Python loop computes.
* Integer arithmetic on counters uses `Nat`/`Int` as appropriate; the two
  float computations of `validator.py` (`mine_density > 0.25` and
  `int(total_cells * 0.15)`) are modelled exactly over `ℚ`/`ℤ`: for every
  board size reachable here the IEEE double results coincide with the exact
  rational results (the products stay ≥ 1/20 away from the nearest integer,
  far above the rounding error, and `0.25` is exactly representable).
-/

/-- Cell display/interaction state; `cell.py` implements it as one class per
state (`HiddenState`, `RevealedState`, `FlaggedState`). -/
inductive CellState where
  | Hidden
  | Revealed
  | Flagged
deriving DecidableEq, Repr

/-- `HiddenState.reveal/RevealedState.reveal/FlaggedState.reveal`. -/
def CellState.reveal_state : CellState → CellState
  | .Hidden => .Revealed
  | s => s

/-- `HiddenState.flag/RevealedState.flag/FlaggedState.flag`. -/
def CellState.flag_state : CellState → CellState
  | .Hidden => .Flagged
  | .Revealed => .Revealed
  | .Flagged => .Hidden

/-- `can_reveal` of the three state classes. -/
def CellState.can_reveal_state : CellState → Bool
  | .Hidden => true
  | _ => false

/-- `can_flag` of the three state classes. -/
def CellState.can_flag_state : CellState → Bool
  | .Hidden => true
  | .Revealed => false
  | .Flagged => true

/-- `Cell` of `cell.py`. -/
structure Cell where
  row : Nat
  col : Nat
  state : CellState
  is_mine : Bool
  adjacent_mines : Nat
deriving DecidableEq, Repr

/-- `Cell.__init__`. -/
def Cell.init (row col : Nat) : Cell :=
  { row := row, col := col, state := .Hidden, is_mine := false, adjacent_mines := 0 }

/-- `Cell.can_reveal`. -/
def Cell.can_reveal (c : Cell) : Bool := c.state.can_reveal_state

/-- `Cell.can_flag`. -/
def Cell.can_flag (c : Cell) : Bool := c.state.can_flag_state

/-- `Cell.reveal`. -/
def Cell.reveal (c : Cell) : Cell :=
  if c.can_reveal then { c with state := c.state.reveal_state } else c

/-- `Cell.flag`. -/
def Cell.flag (c : Cell) : Cell :=
  if c.can_flag then { c with state := c.state.flag_state } else c

/-- `Cell.is_revealed`. -/
def Cell.is_revealed (c : Cell) : Bool := c.state = CellState.Revealed

/-- `Cell.is_flagged`. -/
def Cell.is_flagged (c : Cell) : Bool := c.state = CellState.Flagged

/-- `Cell.is_hidden`. -/
def Cell.is_hidden (c : Cell) : Bool := c.state = CellState.Hidden

/-- `Cell.set_mine`. -/
def Cell.set_mine (c : Cell) : Cell := { c with is_mine := true }

/-- `Cell.set_adjacent_mines`; Python raises `ValueError` when the count is
outside `0..8` (the raising branch is unreachable: every call site passes a
count of at most 8 neighbor cells). -/
def Cell.set_adjacent_mines (c : Cell) (count : Nat) : Cell :=
  if count ≤ 8 then { c with adjacent_mines := count } else c

/-- `validate_position` of `validator.py`; the Python function returns `True`
or raises `ValueError`; positions are naturals here so the `< 0` checks are
vacuous. -/
def validate_position (row col width height : Nat) : Bool :=
  decide (row < height) && decide (col < width)

/-- `get_adjacent_positions` of `validator.py`: iterate `dr`/`dc` over
`[-1, 0, 1]`, skip `(0, 0)`, keep the in-bounds neighbors, in loop order. -/
def get_adjacent_positions (row col width height : Nat) : List (Nat × Nat) :=
  ([-1, 0, 1] : List Int).flatMap fun dr =>
    ([-1, 0, 1] : List Int).flatMap fun dc =>
      if dr = 0 ∧ dc = 0 then []
      else
        let new_row : Int := (row : Int) + dr
        let new_col : Int := (col : Int) + dc
        if 0 ≤ new_row ∧ new_row < (height : Int) ∧ 0 ≤ new_col ∧ new_col < (width : Int) then
          [(new_row.toNat, new_col.toNat)]
        else []

/-- The error taxonomy of spec §7 for `validate_board_settings` (Python raises
`ValueError` with distinct messages for the three kinds). -/
inductive SettingsError where
  | InvalidDimensions
  | InvalidMineCount
  | DensityExceeded
deriving DecidableEq, Repr

/-- `validate_board_settings` of `validator.py`.  The `isinstance` checks are
vacuously true for `Int` inputs.  The float comparison
`mine_count / total_cells > 0.25` is modelled exactly over `ℚ` (see module
docstring). -/
def validate_board_settings (width height mine_count : Int) :
    Except SettingsError Bool :=
  if width < 9 ∨ width > 30 then .error .InvalidDimensions
  else if height < 9 ∨ height > 30 then .error .InvalidDimensions
  else
    let total_cells : Int := width * height
    if mine_count < 1 then .error .InvalidMineCount
    else if mine_count ≥ total_cells then .error .InvalidMineCount
    else if (mine_count : ℚ) / (total_cells : ℚ) > 0.25 then .error .DensityExceeded
    else .ok true

/-- `calculate_mine_density` of `validator.py` (exact rational model of the
float division). -/
def calculate_mine_density (width height mine_count : Int) : ℚ :=
  (mine_count : ℚ) / ((width * height : Int) : ℚ)

/-- `suggest_reasonable_settings` of `validator.py`.
`int(total_cells * 0.15)` truncates the float product toward zero; the model
uses the exact value `Int.tdiv (3 * total_cells) 20`. This agrees with the
IEEE-double computation for every `total_cells ≤ 90000` (checked
exhaustively), far beyond the validated board range of at most `30 * 30 = 900`
cells, but can differ once `total_cells` approaches `2 ^ 53` (e.g. at
`total_cells = 18014398509481994` the double product rounds low). Statements
about this definition are therefore bounded to `total_cells ≤ 90000`. -/
def suggest_reasonable_settings (width height : Int) : Int :=
  let total_cells : Int := width * height
  let suggested_mines : Int := Int.tdiv (3 * total_cells) 20
  let suggested_mines : Int := max 1 suggested_mines
  let suggested_mines : Int := min suggested_mines (total_cells - 1)
  suggested_mines

/-- The set of in-bounds `(row, col)` positions of a `width × height` grid. -/
def allPos (width height : Nat) : Finset (Nat × Nat) :=
  Finset.range height ×ˢ Finset.range width

/-- `Board` of `board.py`; the row-major list-of-lists grid is embedded as a
total function on `(row, col)`. -/
structure Board where
  width : Nat
  height : Nat
  mine_count : Nat
  cells : Nat × Nat → Cell
  revealed_count : Nat
  flagged_count : Nat
  first_click : Bool
  mine_positions : Finset (Nat × Nat)

/-- `Board.__init__` together with `_initialize_grid`. -/
def Board.init (width height mine_count : Nat) : Board :=
  { width := width, height := height, mine_count := mine_count,
    cells := fun p => Cell.init p.1 p.2,
    revealed_count := 0, flagged_count := 0, first_click := true,
    mine_positions := ∅ }

/-- `Board._count_adjacent_mines`. -/
def Board.count_adjacent_mines (b : Board) (row col : Nat) : Nat :=
  (get_adjacent_positions row col b.width b.height).countP
    (fun q => (b.cells q).is_mine)

/-- `Board._calculate_adjacent_mines`: for every in-bounds non-mine cell, set
its adjacent count (all counts are read from the pre-pass grid, which is sound
because the pass changes no `is_mine` field). -/
def Board.calculate_adjacent_mines (b : Board) : Board :=
  { b with cells := fun p =>
      if p.1 < b.height ∧ p.2 < b.width ∧ ¬ (b.cells p).is_mine then
        (b.cells p).set_adjacent_mines (b.count_adjacent_mines p.1 p.2)
      else b.cells p }

/-- The contract satisfied by any successful result of
`random.sample(all_positions, mine_count)` in `Board.generate_mines`:
`mine_count` distinct positions drawn from the in-bounds grid minus the safe
cell.  (`random.sample` raises before any mutation when
`mine_count` exceeds the population size; then no set satisfies this.) -/
def SampleValid (width height mine_count : Nat) (safe : Nat × Nat)
    (mines : Finset (Nat × Nat)) : Prop :=
  mines ⊆ allPos width height \ {safe} ∧ mines.card = mine_count

instance (width height mine_count : Nat) (safe : Nat × Nat) (mines : Finset (Nat × Nat)) :
    Decidable (SampleValid width height mine_count safe mines) := by
  unfold SampleValid
  infer_instance

/-- `Board.generate_mines`, with the sampled set passed in as `mines`. -/
def Board.generate_mines (b : Board) (safe_row safe_col : Nat)
    (mines : Finset (Nat × Nat)) : Board :=
  if b.mine_positions ≠ ∅ then b
  else
    let b1 : Board := { b with mine_positions := mines }
    let b2 : Board :=
      { b1 with cells := fun p => if p ∈ mines then (b1.cells p).set_mine else b1.cells p }
    b2.calculate_adjacent_mines

/-- One iteration of the `for adj_row, adj_col in adjacent_positions` loop in
`Board._reveal_adjacent_empty_cells`: reveal a hidden, non-flagged neighbor
and push it on the work stack when it is an empty non-mine cell.
The accumulator's list is the stack of newly pushed positions (head = top). -/
def flood_step (b : Board) (qacc : List (Nat × Nat)) (q : Nat × Nat) :
    Board × List (Nat × Nat) :=
  let adj_cell := b.cells q
  if adj_cell.is_hidden ∧ ¬ adj_cell.is_flagged then
    let b' : Board :=
      { b with cells := Function.update b.cells q adj_cell.reveal,
               revealed_count := b.revealed_count + 1 }
    if adj_cell.adjacent_mines = 0 ∧ ¬ adj_cell.is_mine then (b', q :: qacc)
    else (b', qacc)
  else (b, qacc)

/-- The `while to_reveal:` loop of `Board._reveal_adjacent_empty_cells`.
The Python list used as a stack (`pop`/`append` at the end) is embedded as a
list whose head is the top of the stack; `fuel` bounds the number of loop
iterations and is chosen large enough to never run out (see
`flood_loop_spec`).  `w`/`h` are the board's dimensions, which the loop never
changes. -/
def flood_loop (w h : Nat) : Nat → Board → List (Nat × Nat) → Finset (Nat × Nat) → Board
  | 0, b, _, _ => b
  | _ + 1, b, [], _ => b
  | fuel + 1, b, current :: rest, revealed =>
    if current ∈ revealed then flood_loop w h fuel b rest revealed
    else
      let adjacent_positions := get_adjacent_positions current.1 current.2 w h
      let res := adjacent_positions.foldl (fun s r => flood_step s.1 s.2 r) (b, [])
      flood_loop w h fuel res.1 (res.2 ++ rest) (insert current revealed)

/-- `Board._reveal_adjacent_empty_cells`; the fuel `10 * (w*h + 1)` dominates
the total number of loop iterations (each processed position enters the seen
set, so at most `w*h + 1` positions are processed, and each pushes at most 9
neighbors). -/
def Board.reveal_adjacent_empty_cells (b : Board) (row col : Nat) : Board :=
  flood_loop b.width b.height (10 * (b.width * b.height + 1)) b [(row, col)] ∅

/-- `Board.reveal_cell`; returns the updated board and the Python return
value.  An out-of-bounds position raises in Python before any mutation, which
is modelled as `(b, false)`. -/
def Board.reveal_cell (b : Board) (row col : Nat) (mines : Finset (Nat × Nat)) :
    Board × Bool :=
  if ¬ validate_position row col b.width b.height then (b, false)
  else
    let cell := b.cells (row, col)
    if ¬ cell.can_reveal then (b, false)
    else
      let b1 : Board :=
        if b.first_click then
          { b.generate_mines row col mines with first_click := false }
        else b
      let cell1 := b1.cells (row, col)
      let b2 : Board :=
        { b1 with cells := Function.update b1.cells (row, col) cell1.reveal,
                  revealed_count := b1.revealed_count + 1 }
      if cell1.adjacent_mines = 0 ∧ ¬ cell1.is_mine then
        (b2.reveal_adjacent_empty_cells row col, true)
      else (b2, true)

/-- `Board.flag_cell`. -/
def Board.flag_cell (b : Board) (row col : Nat) : Board × Bool :=
  if ¬ validate_position row col b.width b.height then (b, false)
  else
    let cell := b.cells (row, col)
    if ¬ cell.can_flag then (b, false)
    else
      let was_flagged := cell.is_flagged
      let cell' := cell.flag
      let b1 : Board := { b with cells := Function.update b.cells (row, col) cell' }
      let b2 : Board :=
        if was_flagged ∧ ¬ cell'.is_flagged then
          { b1 with flagged_count := b1.flagged_count - 1 }
        else if ¬ was_flagged ∧ cell'.is_flagged then
          { b1 with flagged_count := b1.flagged_count + 1 }
        else b1
      (b2, true)

/-- `Board.expand_adjacent_cells`; the `for` loop over `hidden_adjacent`
revealing each neighbor and collecting the successfully revealed ones is a
fold.  The `flag_count`/`hidden_adjacent` pass follows the Python `elif`:
a neighbor goes to `hidden_adjacent` iff it is not flagged and hidden. -/
def Board.expand_adjacent_cells (b : Board) (row col : Nat)
    (mines : Finset (Nat × Nat)) : Board × Finset (Nat × Nat) :=
  if ¬ validate_position row col b.width b.height then (b, ∅)
  else
    let cell := b.cells (row, col)
    if ¬ cell.is_revealed ∨ cell.adjacent_mines = 0 then (b, ∅)
    else
      let adjacent_positions := get_adjacent_positions row col b.width b.height
      let flag_count := adjacent_positions.countP (fun q => (b.cells q).is_flagged)
      let hidden_adjacent := adjacent_positions.filter
        (fun q => !(b.cells q).is_flagged && (b.cells q).is_hidden)
      if flag_count ≠ cell.adjacent_mines then (b, ∅)
      else
        hidden_adjacent.foldl
          (fun acc q =>
            let res := acc.1.reveal_cell q.1 q.2 mines
            if res.2 then (res.1, insert q acc.2) else (res.1, acc.2))
          (b, ∅)

/-- `Board.check_win_condition`; `total_non_mine_cells` is computed over `ℤ`
because Python's subtraction does not truncate at zero. -/
def Board.check_win_condition (b : Board) : Bool :=
  (b.revealed_count : Int) = (b.width : Int) * (b.height : Int) - (b.mine_count : Int)

/-- `Board.check_lose_condition`. -/
def Board.check_lose_condition (b : Board) : Bool :=
  decide (∃ p ∈ b.mine_positions, (b.cells p).is_revealed = true)

/-- `GameState` of `game_state.py`. -/
inductive GameState where
  | NEW
  | PLAYING
  | PAUSED
  | WON
  | LOST
deriving DecidableEq, Repr

/-- `DifficultyLevel` of `difficulty.py` (only the fields the session uses). -/
structure DifficultyLevel where
  name : String
  width : Nat
  height : Nat
  mines : Nat

/-- `GameSession` of `game_state.py`; timestamps are abstract `Nat` instants
supplied by the caller at each operation (`datetime.now()`). -/
structure GameSession where
  difficulty : DifficultyLevel
  board : Board
  state : GameState
  start_time : Option Nat
  end_time : Option Nat
  moves_count : Nat
  flags_used : Nat

/-- `GameSession.__init__`. -/
def GameSession.init (difficulty : DifficultyLevel) : GameSession :=
  { difficulty := difficulty,
    board := Board.init difficulty.width difficulty.height difficulty.mines,
    state := .NEW, start_time := none, end_time := none,
    moves_count := 0, flags_used := 0 }

/-- `GameSession.start_game`. -/
def GameSession.start_game (s : GameSession) (now : Nat) : GameSession :=
  if s.state = GameState.NEW then
    { s with state := .PLAYING, start_time := some now }
  else s

/-- `GameSession.make_move`; a state other than NEW/PLAYING raises
`ValueError` before any mutation, modelled as `(s, false)`.  `action` is the
Python string argument; `mines` parameterizes the possible mine generation on
a first reveal. -/
def GameSession.make_move (s : GameSession) (row col : Nat) (action : String)
    (mines : Finset (Nat × Nat)) (now : Nat) : GameSession × Bool :=
  if s.state ≠ GameState.PLAYING ∧ s.state ≠ GameState.NEW then (s, false)
  else
    let s1 := if s.state = GameState.NEW then s.start_game now else s
    if action = "reveal" then
      let res := s1.board.reveal_cell row col mines
      if res.2 then
        let s2 := { s1 with board := res.1, moves_count := s1.moves_count + 1 }
        if res.1.check_lose_condition then
          ({ s2 with state := .LOST, end_time := some now }, true)
        else if res.1.check_win_condition then
          ({ s2 with state := .WON, end_time := some now }, true)
        else (s2, true)
      else ({ s1 with board := res.1 }, false)
    else if action = "flag" then
      let res := s1.board.flag_cell row col
      if res.2 then
        ({ s1 with board := res.1, flags_used := s1.flags_used + 1 }, true)
      else ({ s1 with board := res.1 }, false)
    else (s1, false)

/-- `GameSession.expand_adjacent`; a state other than PLAYING raises
`ValueError` before any mutation, modelled as `(s, false)`. -/
def GameSession.expand_adjacent (s : GameSession) (row col : Nat)
    (mines : Finset (Nat × Nat)) (now : Nat) : GameSession × Bool :=
  if s.state ≠ GameState.PLAYING then (s, false)
  else
    let res := s.board.expand_adjacent_cells row col mines
    if res.2 ≠ ∅ then
      let s1 := { s with board := res.1, moves_count := s.moves_count + 1 }
      if res.1.check_win_condition then
        ({ s1 with state := .WON, end_time := some now }, true)
      else (s1, true)
    else ({ s with board := res.1 }, false)

/-! ### Characterization of `get_adjacent_positions` -/

/-- Two positions are 8-compass neighbors. -/
def adjacentRel (p q : Nat × Nat) : Prop :=
  p ≠ q ∧ q.1 ≤ p.1 + 1 ∧ p.1 ≤ q.1 + 1 ∧ q.2 ≤ p.2 + 1 ∧ p.2 ≤ q.2 + 1

instance : DecidablePred fun pq : (Nat × Nat) × Nat × Nat => adjacentRel pq.1 pq.2 :=
  fun _ => by unfold adjacentRel; infer_instance

instance (p q : Nat × Nat) : Decidable (adjacentRel p q) := by
  unfold adjacentRel; infer_instance

/-- The nine `(dr, dc)` loop iterations of `get_adjacent_positions`, in loop
order (proof-support reformulation). -/
def adjDeltas : List (Int × Int) :=
  [(-1, -1), (-1, 0), (-1, 1), (0, -1), (0, 0), (0, 1), (1, -1), (1, 0), (1, 1)]

/-- One loop iteration of `get_adjacent_positions` as an `Option`
(proof-support reformulation). -/
def adjOption (row col width height : Nat) (d : Int × Int) : Option (Nat × Nat) :=
  if ¬(d.1 = 0 ∧ d.2 = 0) ∧
      0 ≤ (row : Int) + d.1 ∧ (row : Int) + d.1 < (height : Int) ∧
      0 ≤ (col : Int) + d.2 ∧ (col : Int) + d.2 < (width : Int) then
    some (((row : Int) + d.1).toNat, ((col : Int) + d.2).toNat)
  else none

theorem adj_piece_eq (row col width height : Nat) (dr dc : Int) :
    (if dr = 0 ∧ dc = 0 then ([] : List (Nat × Nat))
     else
       if 0 ≤ (row : Int) + dr ∧ (row : Int) + dr < (height : Int) ∧
           0 ≤ (col : Int) + dc ∧ (col : Int) + dc < (width : Int) then
         [(((row : Int) + dr).toNat, ((col : Int) + dc).toNat)]
       else []) =
      (adjOption row col width height (dr, dc)).toList := by
  unfold adjOption
  split_ifs <;> simp_all

theorem get_adjacent_eq_filterMap (row col width height : Nat) :
    get_adjacent_positions row col width height =
      adjDeltas.filterMap (adjOption row col width height) := by
  rw [List.filterMap_eq_flatMap_toList]
  simp only [get_adjacent_positions, adjDeltas, List.flatMap_cons, List.flatMap_nil,
    List.append_nil, List.append_assoc, adj_piece_eq]

theorem length_get_adjacent_le (row col width height : Nat) :
    (get_adjacent_positions row col width height).length ≤ 9 := by
  rw [get_adjacent_eq_filterMap]
  exact le_trans (List.length_filterMap_le _ _) (by simp [adjDeltas])

theorem nodup_get_adjacent (row col width height : Nat) :
    (get_adjacent_positions row col width height).Nodup := by
  rw [get_adjacent_eq_filterMap]
  refine List.Nodup.filterMap ?_ (by decide)
  intro a a' b hb hb'
  simp only [adjOption, Option.mem_def, Option.ite_none_right_eq_some,
    Option.some.injEq] at hb hb'
  obtain ⟨⟨hne, h1, h2, h3, h4⟩, hb⟩ := hb
  obtain ⟨⟨hne', h1', h2', h3', h4'⟩, hb'⟩ := hb'
  rw [← hb'] at hb
  have h5 := congrArg Prod.fst hb
  have h6 := congrArg Prod.snd hb
  simp only at h5 h6
  refine Prod.ext ?_ ?_ <;> omega

theorem mem_allPos {p : Nat × Nat} {width height : Nat} :
    p ∈ allPos width height ↔ p.1 < height ∧ p.2 < width := by
  simp [allPos, Finset.mem_product]

theorem mem_get_adjacent {q : Nat × Nat} {row col width height : Nat} :
    q ∈ get_adjacent_positions row col width height ↔
      q.1 < height ∧ q.2 < width ∧ adjacentRel (row, col) q := by
  rw [get_adjacent_eq_filterMap]
  constructor
  · intro h
    rcases List.mem_filterMap.1 h with ⟨d, hd, hq⟩
    simp only [adjOption, Option.ite_none_right_eq_some, Option.some.injEq] at hq
    obtain ⟨⟨hne, h1, h2, h3, h4⟩, hq⟩ := hq
    subst hq
    simp only [adjDeltas, List.mem_cons, List.not_mem_nil, or_false] at hd
    simp only [adjacentRel, ne_eq, Prod.ext_iff, not_and]
    rcases hd with rfl|rfl|rfl|rfl|rfl|rfl|rfl|rfl|rfl <;> simp_all <;> omega
  · rintro ⟨hh, hw, hne, h1, h2, h3, h4⟩
    apply List.mem_filterMap.2
    refine ⟨((q.1 : Int) - (row : Int), (q.2 : Int) - (col : Int)), ?_, ?_⟩
    · have hne' : ¬(row = q.1 ∧ col = q.2) := fun h => hne (Prod.ext h.1 h.2)
      simp only [adjDeltas, List.mem_cons, List.not_mem_nil, or_false, Prod.ext_iff]
      omega
    · have hne' : ¬(row = q.1 ∧ col = q.2) := fun h => hne (Prod.ext h.1 h.2)
      simp only [adjOption, Option.ite_none_right_eq_some, Option.some.injEq]
      refine ⟨by constructor <;> [skip; omega] <;> omega, ?_⟩
      simp only [Prod.ext_iff]
      constructor <;> omega

theorem mem_get_adjacent_allPos {q : Nat × Nat} {row col width height : Nat}
    (h : q ∈ get_adjacent_positions row col width height) : q ∈ allPos width height := by
  rw [mem_get_adjacent] at h
  exact mem_allPos.2 ⟨h.1, h.2.1⟩

/-! ### Cell-level facts -/

theorem Cell.reveal_of_hidden {c : Cell} (h : c.state = CellState.Hidden) :
    c.reveal = { c with state := CellState.Revealed } := by
  simp [Cell.reveal, Cell.can_reveal, h, CellState.can_reveal_state, CellState.reveal_state]

theorem Cell.reveal_of_not_hidden {c : Cell} (h : ¬ c.state = CellState.Hidden) :
    c.reveal = c := by
  unfold Cell.reveal Cell.can_reveal
  cases hs : c.state <;> simp_all [CellState.can_reveal_state]

theorem Cell.can_reveal_iff {c : Cell} : c.can_reveal = true ↔ c.state = CellState.Hidden := by
  unfold Cell.can_reveal
  cases c.state <;> simp [CellState.can_reveal_state]

theorem Cell.can_flag_iff {c : Cell} :
    c.can_flag = true ↔ c.state = CellState.Hidden ∨ c.state = CellState.Flagged := by
  unfold Cell.can_flag
  cases c.state <;> simp [CellState.can_flag_state]

theorem Cell.is_hidden_iff {c : Cell} : c.is_hidden = true ↔ c.state = CellState.Hidden := by
  simp [Cell.is_hidden]

theorem Cell.is_flagged_iff {c : Cell} : c.is_flagged = true ↔ c.state = CellState.Flagged := by
  simp [Cell.is_flagged]

theorem Cell.is_revealed_iff {c : Cell} : c.is_revealed = true ↔ c.state = CellState.Revealed := by
  simp [Cell.is_revealed]

/-! ### Frame relation for state-only board growth -/

/-- The set of positions newly revealed between two board snapshots. -/
def newlyRevealed (w h : Nat) (b b' : Board) : Finset (Nat × Nat) :=
  (allPos w h).filter
    (fun p => (b.cells p).state = CellState.Hidden ∧ (b'.cells p).state = CellState.Revealed)

/-- `StepOk w h b b'` says the board evolved from `b` to `b'` by only turning
some in-bounds Hidden cells into Revealed ones, incrementing
`revealed_count` once per newly revealed cell and changing nothing else.
`reveal_cell` (after generation), `flag`-free flood fill, and chord expansion
steps all satisfy it. -/
structure StepOk (w h : Nat) (b b' : Board) : Prop where
  width_eq : b'.width = b.width
  height_eq : b'.height = b.height
  mc_eq : b'.mine_count = b.mine_count
  flagged_eq : b'.flagged_count = b.flagged_count
  fc_eq : b'.first_click = b.first_click
  mp_eq : b'.mine_positions = b.mine_positions
  mine_eq : ∀ p, (b'.cells p).is_mine = (b.cells p).is_mine
  adj_eq : ∀ p, (b'.cells p).adjacent_mines = (b.cells p).adjacent_mines
  state_mono : ∀ p, (b'.cells p).state = (b.cells p).state ∨
    ((b.cells p).state = CellState.Hidden ∧ (b'.cells p).state = CellState.Revealed)
  count_eq : b'.revealed_count = b.revealed_count + (newlyRevealed w h b b').card

theorem newlyRevealed_self (w h : Nat) (b : Board) : newlyRevealed w h b b = ∅ := by
  ext p
  simp only [newlyRevealed, Finset.mem_filter, Finset.not_mem_empty, iff_false, not_and]
  intro _ h1 h2
  rw [h1] at h2
  cases h2

theorem StepOk.refl (w h : Nat) (b : Board) : StepOk w h b b :=
  ⟨rfl, rfl, rfl, rfl, rfl, rfl, fun _ => rfl, fun _ => rfl, fun _ => Or.inl rfl,
    by rw [newlyRevealed_self]; simp⟩

theorem StepOk.revealed_persist {w h : Nat} {b b' : Board} (hs : StepOk w h b b')
    {p : Nat × Nat} (hp : (b.cells p).state = CellState.Revealed) :
    (b'.cells p).state = CellState.Revealed := by
  rcases hs.state_mono p with h1 | ⟨h1, _⟩
  · rw [h1, hp]
  · rw [hp] at h1; cases h1

theorem StepOk.hidden_back {w h : Nat} {b b' : Board} (hs : StepOk w h b b')
    {p : Nat × Nat} (hp : (b'.cells p).state = CellState.Hidden) :
    (b.cells p).state = CellState.Hidden := by
  rcases hs.state_mono p with h1 | ⟨_, h2⟩
  · rw [← h1, hp]
  · rw [hp] at h2; cases h2

theorem StepOk.flagged_iff {w h : Nat} {b b' : Board} (hs : StepOk w h b b')
    (p : Nat × Nat) :
    (b'.cells p).state = CellState.Flagged ↔ (b.cells p).state = CellState.Flagged := by
  rcases hs.state_mono p with h1 | ⟨h1, h2⟩
  · rw [h1]
  · rw [h1, h2]
    constructor <;> (intro h3; cases h3)

theorem StepOk.not_hidden_persist {w h : Nat} {b b' : Board} (hs : StepOk w h b b')
    {p : Nat × Nat} (hp : ¬ (b.cells p).state = CellState.Hidden) :
    ¬ (b'.cells p).state = CellState.Hidden :=
  fun hcon => hp (hs.hidden_back hcon)

theorem newlyRevealed_union {w h : Nat} {b b' b'' : Board}
    (h1 : StepOk w h b b') (h2 : StepOk w h b' b'') :
    newlyRevealed w h b b'' = newlyRevealed w h b b' ∪ newlyRevealed w h b' b'' := by
  ext p
  simp only [newlyRevealed, Finset.mem_union, Finset.mem_filter]
  constructor
  · rintro ⟨hmem, hh, hr⟩
    rcases h2.state_mono p with he | ⟨hh', _⟩
    · exact Or.inl ⟨hmem, hh, he ▸ hr⟩
    · exact Or.inr ⟨hmem, hh', hr⟩
  · rintro (⟨hmem, hh, hr⟩ | ⟨hmem, hh, hr⟩)
    · exact ⟨hmem, hh, h2.revealed_persist hr⟩
    · exact ⟨hmem, h1.hidden_back hh, hr⟩

theorem newlyRevealed_disjoint {w h : Nat} {b b' b'' : Board} :
    Disjoint (newlyRevealed w h b b') (newlyRevealed w h b' b'') := by
  rw [Finset.disjoint_left]
  intro p hp1 hp2
  simp only [newlyRevealed, Finset.mem_filter] at hp1 hp2
  rw [hp1.2.2] at hp2
  cases hp2.2.1

theorem StepOk.trans {w h : Nat} {b b' b'' : Board}
    (h1 : StepOk w h b b') (h2 : StepOk w h b' b'') : StepOk w h b b'' := by
  refine ⟨h2.width_eq.trans h1.width_eq, h2.height_eq.trans h1.height_eq,
    h2.mc_eq.trans h1.mc_eq, h2.flagged_eq.trans h1.flagged_eq,
    h2.fc_eq.trans h1.fc_eq, h2.mp_eq.trans h1.mp_eq,
    fun p => (h2.mine_eq p).trans (h1.mine_eq p),
    fun p => (h2.adj_eq p).trans (h1.adj_eq p), ?_, ?_⟩
  · intro p
    rcases h2.state_mono p with he | ⟨hh, hr⟩
    · rcases h1.state_mono p with he' | ⟨hh', hr'⟩
      · exact Or.inl (he.trans he')
      · exact Or.inr ⟨hh', he ▸ hr'⟩
    · exact Or.inr ⟨h1.hidden_back hh, hr⟩
  · rw [h2.count_eq, h1.count_eq, newlyRevealed_union h1 h2,
      Finset.card_union_of_disjoint newlyRevealed_disjoint]
    omega

/-! ### Generic helpers about `Function.update` and counting filters -/

theorem filter_update_card_add {s : Finset (Nat × Nat)} {f : Nat × Nat → Cell}
    {p : Nat × Nat} {c : Cell} {st : CellState}
    (hp : p ∈ s) (hc : c.state = st) (hf : ¬ (f p).state = st) :
    (s.filter fun q => (Function.update f p c q).state = st).card =
      (s.filter fun q => (f q).state = st).card + 1 := by
  have : (s.filter fun q => (Function.update f p c q).state = st) =
      insert p (s.filter fun q => (f q).state = st) := by
    ext q
    by_cases hq : q = p
    · subst hq
      simp [Function.update_apply, hp, hc]
    · simp [Function.update_apply, hq, Finset.mem_insert]
  rw [this, Finset.card_insert_of_not_mem (by simp [hf])]

theorem filter_update_congr {s : Finset (Nat × Nat)} {f : Nat × Nat → Cell}
    {p : Nat × Nat} {c : Cell} {st : CellState}
    (hcong : c.state = st ↔ (f p).state = st) :
    (s.filter fun q => (Function.update f p c q).state = st) =
      s.filter fun q => (f q).state = st := by
  apply Finset.filter_congr
  intro q _
  by_cases hq : q = p
  · subst hq; simp only [Function.update_apply, if_pos rfl, eq_iff_iff]; exact hcong
  · simp [Function.update_apply, hq]

/-- Revealing one in-bounds hidden cell is a `StepOk` step. -/
theorem StepOk.single_reveal {w h : Nat} (b : Board) (p : Nat × Nat)
    (hp : p ∈ allPos w h) (hhid : (b.cells p).state = CellState.Hidden) :
    StepOk w h b
      { b with cells := Function.update b.cells p (b.cells p).reveal,
               revealed_count := b.revealed_count + 1 } := by
  have hrev := Cell.reveal_of_hidden hhid
  have hnew : newlyRevealed w h b
      { b with cells := Function.update b.cells p (b.cells p).reveal,
               revealed_count := b.revealed_count + 1 } = {p} := by
    ext q
    simp only [newlyRevealed, Finset.mem_filter, Finset.mem_singleton]
    by_cases hq : q = p
    · subst hq
      simp [Function.update_apply, hhid, hrev, hp]
    · simp only [Function.update_apply, if_neg hq]
      constructor
      · rintro ⟨_, h1, h2⟩
        rw [h1] at h2; cases h2
      · intro hcon; exact absurd hcon hq
  refine ⟨rfl, rfl, rfl, rfl, rfl, rfl, ?_, ?_, ?_, ?_⟩
  · intro q
    by_cases hq : q = p
    · subst hq; simp [Function.update_apply, hrev]
    · simp [Function.update_apply, hq]
  · intro q
    by_cases hq : q = p
    · subst hq; simp [Function.update_apply, hrev]
    · simp [Function.update_apply, hq]
  · intro q
    by_cases hq : q = p
    · subst hq
      right
      simp [Function.update_apply, hrev, hhid]
    · left; simp [Function.update_apply, hq]
  · rw [hnew]
    simp

/-! ### The flood-fill inner loop -/

/-- The enqueue condition of `_reveal_adjacent_empty_cells` for a cell of
board `b` at position `r`: hidden, empty, and not a mine. -/
def FloodCond (b : Board) (r : Nat × Nat) : Prop :=
  (b.cells r).state = CellState.Hidden ∧ (b.cells r).adjacent_mines = 0 ∧
    (b.cells r).is_mine = false

instance (b : Board) (r : Nat × Nat) : Decidable (FloodCond b r) := by
  unfold FloodCond; infer_instance

theorem flood_step_spec {w h : Nat} (b : Board) (acc : List (Nat × Nat))
    (q : Nat × Nat) (hq : q ∈ allPos w h) :
    StepOk w h b (flood_step b acc q).1 ∧
    (∀ p, p ≠ q → (flood_step b acc q).1.cells p = b.cells p) ∧
    ((b.cells q).state = CellState.Hidden →
      ((flood_step b acc q).1.cells q).state = CellState.Revealed) ∧
    (¬ (b.cells q).state = CellState.Hidden → (flood_step b acc q).1 = b) ∧
    (∀ r, r ∈ (flood_step b acc q).2 ↔ r ∈ acc ∨ (r = q ∧ FloodCond b q)) := by
  by_cases hhid : (b.cells q).state = CellState.Hidden
  · have hcond : (b.cells q).is_hidden = true ∧ ¬ (b.cells q).is_flagged = true := by
      constructor
      · simp [Cell.is_hidden, hhid]
      · simp [Cell.is_flagged, hhid]
    simp only [flood_step]
    rw [if_pos hcond]
    by_cases hz : (b.cells q).adjacent_mines = 0 ∧ ¬ (b.cells q).is_mine = true
    · rw [if_pos hz]
      refine ⟨StepOk.single_reveal b q hq hhid, ?_, ?_, ?_, ?_⟩
      · intro p hp; simp [Function.update_apply, hp]
      · intro _; simp [Function.update_apply, Cell.reveal_of_hidden hhid]
      · intro hcon; exact absurd hhid hcon
      · intro r
        simp only [List.mem_cons, FloodCond]
        constructor
        · rintro (rfl | hr)
          · exact Or.inr ⟨rfl, hhid, hz.1, by simpa using hz.2⟩
          · exact Or.inl hr
        · rintro (hr | ⟨rfl, _⟩)
          · exact Or.inr hr
          · exact Or.inl rfl
    · rw [if_neg hz]
      refine ⟨StepOk.single_reveal b q hq hhid, ?_, ?_, ?_, ?_⟩
      · intro p hp; simp [Function.update_apply, hp]
      · intro _; simp [Function.update_apply, Cell.reveal_of_hidden hhid]
      · intro hcon; exact absurd hhid hcon
      · intro r
        simp only [FloodCond]
        constructor
        · exact fun hr => Or.inl hr
        · rintro (hr | ⟨rfl, _, hz1, hz2⟩)
          · exact hr
          · exact absurd ⟨hz1, by simp [hz2]⟩ hz
  · have hcond : ¬ ((b.cells q).is_hidden = true ∧ ¬ (b.cells q).is_flagged = true) := by
      simp [Cell.is_hidden, hhid]
    simp only [flood_step]
    rw [if_neg hcond]
    refine ⟨StepOk.refl w h b, fun _ _ => rfl, fun hcon => absurd hcon hhid,
      fun _ => rfl, ?_⟩
    intro r
    simp only [FloodCond]
    constructor
    · exact fun hr => Or.inl hr
    · rintro (hr | ⟨rfl, hcon, _⟩)
      · exact hr
      · exact absurd hcon hhid

/-- Connectivity inside a set of positions: `t` is reachable from `s` by
8-compass-neighbor steps that stay inside `R`. -/
def ConnectedIn (R : Finset (Nat × Nat)) (s t : Nat × Nat) : Prop :=
  Relation.ReflTransGen (fun a b => adjacentRel a b ∧ b ∈ R) s t

theorem ConnectedIn.mono {R R' : Finset (Nat × Nat)} {s t : Nat × Nat}
    (hsub : R ⊆ R') (hc : ConnectedIn R s t) : ConnectedIn R' s t :=
  Relation.ReflTransGen.mono (fun _ _ hab => ⟨hab.1, hsub hab.2⟩) hc

theorem mem_newlyRevealed {w h : Nat} {b b' : Board} {p : Nat × Nat} :
    p ∈ newlyRevealed w h b b' ↔ p ∈ allPos w h ∧
      (b.cells p).state = CellState.Hidden ∧ (b'.cells p).state = CellState.Revealed := by
  simp [newlyRevealed]

theorem newlyRevealed_mono {w h : Nat} {b₀ b b' : Board} (hs : StepOk w h b b') :
    newlyRevealed w h b₀ b ⊆ newlyRevealed w h b₀ b' := by
  intro p hp
  rw [mem_newlyRevealed] at hp ⊢
  exact ⟨hp.1, hp.2.1, hs.revealed_persist hp.2.2⟩

theorem flood_fold_len :
    ∀ (L : List (Nat × Nat)) (b : Board) (acc : List (Nat × Nat)),
    (L.foldl (fun s r => flood_step s.1 s.2 r) (b, acc)).2.length ≤ acc.length + L.length := by
  intro L
  induction L with
  | nil => intro b acc; simp
  | cons q0 L' ih =>
    intro b acc
    rw [List.foldl_cons]
    refine le_trans (ih (flood_step b acc q0).1 (flood_step b acc q0).2) ?_
    have hstep : (flood_step b acc q0).2.length ≤ acc.length + 1 := by
      simp only [flood_step]
      split_ifs <;> simp
    simp only [List.length_cons]
    omega

theorem flood_fold_spec {w h : Nat} :
    ∀ (L : List (Nat × Nat)) (b : Board) (acc : List (Nat × Nat)),
    (∀ q ∈ L, q ∈ allPos w h) →
    StepOk w h b (L.foldl (fun s r => flood_step s.1 s.2 r) (b, acc)).1 ∧
    (∀ p, p ∉ L →
      (L.foldl (fun s r => flood_step s.1 s.2 r) (b, acc)).1.cells p = b.cells p) ∧
    (∀ q ∈ L, (b.cells q).state = CellState.Hidden →
      ((L.foldl (fun s r => flood_step s.1 s.2 r) (b, acc)).1.cells q).state =
        CellState.Revealed) ∧
    (∀ r, r ∈ (L.foldl (fun s r => flood_step s.1 s.2 r) (b, acc)).2 ↔
      r ∈ acc ∨ (r ∈ L ∧ FloodCond b r)) := by
  intro L
  induction L with
  | nil =>
    intro b acc _
    refine ⟨StepOk.refl w h b, fun _ _ => rfl, fun q hq => absurd hq (List.not_mem_nil q), ?_⟩
    intro r
    simp
  | cons q0 L' ih =>
    intro b acc hL
    have hq0 : q0 ∈ allPos w h := hL q0 (List.mem_cons_self q0 L')
    obtain ⟨hs1, hframe1, hrev1, hunch1, hqiff1⟩ :=
      flood_step_spec (w := w) (h := h) b acc q0 hq0
    have hL' : ∀ q ∈ L', q ∈ allPos w h := fun q hq => hL q (List.mem_cons_of_mem _ hq)
    obtain ⟨hs2, hframe2, hrev2, hqiff2⟩ :=
      ih (flood_step b acc q0).1 (flood_step b acc q0).2 hL'
    rw [List.foldl_cons]
    refine ⟨hs1.trans hs2, ?_, ?_, ?_⟩
    · intro p hp
      have hp0 : p ≠ q0 := fun hcon => hp (hcon ▸ List.mem_cons_self q0 L')
      have hpL : p ∉ L' := fun hcon => hp (List.mem_cons_of_mem _ hcon)
      rw [hframe2 p hpL, hframe1 p hp0]
    · intro q hqmem hqhid
      rcases List.mem_cons.1 hqmem with rfl | hqL
      · exact hs2.revealed_persist (hrev1 hqhid)
      · by_cases hq0eq : q = q0
        · subst hq0eq
          exact hs2.revealed_persist (hrev1 hqhid)
        · have : ((flood_step b acc q0).1.cells q).state = CellState.Hidden := by
            rw [hframe1 q hq0eq]; exact hqhid
          exact hrev2 q hqL this
    · intro r
      rw [hqiff2 r, hqiff1 r]
      constructor
      · rintro ((hr | ⟨rfl, hc⟩) | ⟨hrL, hc1⟩)
        · exact Or.inl hr
        · exact Or.inr ⟨List.mem_cons_self _ _, hc⟩
        · by_cases hr0 : r = q0
          · subst hr0
            by_cases hhid : (b.cells r).state = CellState.Hidden
            · have := hrev1 hhid
              rw [hc1.1] at this
              cases this
            · rw [hunch1 hhid] at hc1
              exact absurd hc1.1 hhid
          · refine Or.inr ⟨List.mem_cons_of_mem _ hrL, ?_⟩
            unfold FloodCond at hc1 ⊢
            rw [hframe1 r hr0] at hc1
            exact hc1
      · rintro (hr | ⟨hrmem, hc⟩)
        · exact Or.inl (Or.inl hr)
        · rcases List.mem_cons.1 hrmem with rfl | hrL
          · exact Or.inl (Or.inr ⟨rfl, hc⟩)
          · by_cases hr0 : r = q0
            · subst hr0
              exact Or.inl (Or.inr ⟨rfl, hc⟩)
            · refine Or.inr ⟨hrL, ?_⟩
              unfold FloodCond at hc ⊢
              rw [hframe1 r hr0]
              exact hc

/-- Main invariant lemma for the `while to_reveal:` loop, relative to the
board `b₀` as it was just before the starting cell `start` was revealed.
It shows the loop (1) only turns Hidden cells Revealed, counting each exactly
once, (2) leaves no Hidden neighbor next to any newly revealed empty non-mine
cell, (3) keeps every newly revealed cell connected to `start` inside the
newly revealed set, and (4) gives every newly revealed cell other than
`start` a newly revealed empty non-mine neighbor.  The fuel hypothesis shows
the chosen fuel is never exhausted. -/
theorem flood_loop_spec (w h : Nat) (b₀ : Board) (start : Nat × Nat) :
    ∀ (fuel : Nat) (b : Board) (queue : List (Nat × Nat)) (seen : Finset (Nat × Nat)),
    10 * (allPos w h \ seen).card + queue.length ≤ fuel →
    (∀ q ∈ queue, q ∈ allPos w h) →
    (∀ q ∈ queue, (b.cells q).state = CellState.Revealed ∧
      (b.cells q).adjacent_mines = 0 ∧ (b.cells q).is_mine = false ∧
      (b₀.cells q).state = CellState.Hidden) →
    (∀ p ∈ seen, ∀ q ∈ get_adjacent_positions p.1 p.2 w h,
      ¬ (b.cells q).state = CellState.Hidden) →
    StepOk w h b₀ b →
    (∀ p ∈ allPos w h, (b.cells p).state = CellState.Revealed →
      (b₀.cells p).state = CellState.Hidden → (b.cells p).adjacent_mines = 0 →
      (b.cells p).is_mine = false → p ∈ seen ∨ p ∈ queue) →
    (∀ p ∈ allPos w h, (b.cells p).state = CellState.Revealed →
      (b₀.cells p).state = CellState.Hidden →
      ConnectedIn (newlyRevealed w h b₀ b) start p) →
    (∀ p ∈ allPos w h, (b.cells p).state = CellState.Revealed →
      (b₀.cells p).state = CellState.Hidden →
      (p = start ∨ ∃ a, a ∈ allPos w h ∧ adjacentRel a p ∧
        (b.cells a).state = CellState.Revealed ∧
        (b.cells a).adjacent_mines = 0 ∧ (b.cells a).is_mine = false ∧
        (b₀.cells a).state = CellState.Hidden)) →
    StepOk w h b₀ (flood_loop w h fuel b queue seen) ∧
    (∀ p ∈ allPos w h,
      ((flood_loop w h fuel b queue seen).cells p).state = CellState.Revealed →
      (b₀.cells p).state = CellState.Hidden →
      ((flood_loop w h fuel b queue seen).cells p).adjacent_mines = 0 →
      ((flood_loop w h fuel b queue seen).cells p).is_mine = false →
      ∀ q ∈ get_adjacent_positions p.1 p.2 w h,
        ¬ ((flood_loop w h fuel b queue seen).cells q).state = CellState.Hidden) ∧
    (∀ p ∈ allPos w h,
      ((flood_loop w h fuel b queue seen).cells p).state = CellState.Revealed →
      (b₀.cells p).state = CellState.Hidden →
      ConnectedIn (newlyRevealed w h b₀ (flood_loop w h fuel b queue seen)) start p) ∧
    (∀ p ∈ allPos w h,
      ((flood_loop w h fuel b queue seen).cells p).state = CellState.Revealed →
      (b₀.cells p).state = CellState.Hidden →
      (p = start ∨ ∃ a, a ∈ allPos w h ∧ adjacentRel a p ∧
        ((flood_loop w h fuel b queue seen).cells a).state = CellState.Revealed ∧
        ((flood_loop w h fuel b queue seen).cells a).adjacent_mines = 0 ∧
        ((flood_loop w h fuel b queue seen).cells a).is_mine = false ∧
        (b₀.cells a).state = CellState.Hidden)) := by
  intro fuel
  induction fuel with
  | zero =>
    intro b queue seen hfuel hq_in hq_rzm hseen hstep hcov hconn hwit
    have hq : queue = [] := List.length_eq_zero.1 (by omega)
    subst hq
    simp only [flood_loop]
    refine ⟨hstep, ?_, hconn, hwit⟩
    intro p hp hrev hhid0 hzero hmine q hqadj
    rcases hcov p hp hrev hhid0 hzero hmine with hs | hq'
    · exact hseen p hs q hqadj
    · exact absurd hq' (List.not_mem_nil p)
  | succ fuel ih =>
    intro b queue seen hfuel hq_in hq_rzm hseen hstep hcov hconn hwit
    cases queue with
    | nil =>
      simp only [flood_loop]
      refine ⟨hstep, ?_, hconn, hwit⟩
      intro p hp hrev hhid0 hzero hmine q hqadj
      rcases hcov p hp hrev hhid0 hzero hmine with hs | hq'
      · exact hseen p hs q hqadj
      · exact absurd hq' (List.not_mem_nil p)
    | cons current rest =>
      by_cases hc : current ∈ seen
      · have hgoal : flood_loop w h (fuel + 1) b (current :: rest) seen =
            flood_loop w h fuel b rest seen := by
          simp only [flood_loop, if_pos hc]
        rw [hgoal]
        refine ih b rest seen (by simp only [List.length_cons] at hfuel; omega)
          (fun q hq => hq_in q (List.mem_cons_of_mem _ hq))
          (fun q hq => hq_rzm q (List.mem_cons_of_mem _ hq))
          hseen hstep ?_ hconn hwit
        intro p hp hrev hhid0 hzero hmine
        rcases hcov p hp hrev hhid0 hzero hmine with hs | hpq
        · exact Or.inl hs
        · rcases List.mem_cons.1 hpq with rfl | hpr
          · exact Or.inl hc
          · exact Or.inr hpr
      · -- process `current`
        have hcur_in : current ∈ allPos w h := hq_in current (List.mem_cons_self _ _)
        obtain ⟨hcur_rev, hcur_zero, hcur_mine, hcur_hid0⟩ :=
          hq_rzm current (List.mem_cons_self _ _)
        set L := get_adjacent_positions current.1 current.2 w h with hL_def
        have hLin : ∀ q ∈ L, q ∈ allPos w h := fun q hq => mem_get_adjacent_allPos hq
        obtain ⟨hsf, hframe, hrevL, hqiff⟩ :=
          flood_fold_spec (w := w) (h := h) L b [] hLin
        set res := L.foldl (fun s r => flood_step s.1 s.2 r) (b, []) with hres_def
        have hqiff' : ∀ r, r ∈ res.2 ↔ r ∈ L ∧ FloodCond b r := by
          intro r
          rw [hqiff r]
          simp
        have hgoal : flood_loop w h (fuel + 1) b (current :: rest) seen =
            flood_loop w h fuel res.1 (res.2 ++ rest) (insert current seen) := by
          simp only [flood_loop, if_neg hc]
        rw [hgoal]
        -- membership/cardinality bookkeeping for the fuel bound
        have hcard : (allPos w h \ insert current seen).card + 1 =
            (allPos w h \ seen).card := by
          rw [Finset.sdiff_insert]
          rw [Finset.card_erase_of_mem (Finset.mem_sdiff.2 ⟨hcur_in, hc⟩)]
          have hpos : 0 < (allPos w h \ seen).card :=
            Finset.card_pos.2 ⟨current, Finset.mem_sdiff.2 ⟨hcur_in, hc⟩⟩
          omega
        have hlen : res.2.length ≤ 9 := by
          have h1 := flood_fold_len L b []
          have h2 := length_get_adjacent_le current.1 current.2 w h
          rw [← hL_def] at h2
          rw [← hres_def] at h1
          simp only [List.length_nil] at h1
          omega
        -- facts about cells not hidden in `b` staying not hidden in `res.1`
        have hstep' : StepOk w h b₀ res.1 := hstep.trans hsf
        -- a cell whose state changed in the fold must be an `L`-member hidden in `b`
        have hchange : ∀ p, ¬ (b.cells p).state = CellState.Revealed →
            (res.1.cells p).state = CellState.Revealed →
            p ∈ L ∧ (b.cells p).state = CellState.Hidden := by
          intro p hnb hres1
          have hpL : p ∈ L := by
            by_contra hcon
            rw [hframe p hcon] at hres1
            exact hnb hres1
          rcases hsf.state_mono p with he | ⟨hh, _⟩
          · rw [he] at hres1; exact absurd hres1 hnb
          · exact ⟨hpL, hh⟩
        refine ih res.1 (res.2 ++ rest) (insert current seen) ?_ ?_ ?_ ?_ hstep' ?_ ?_ ?_
        · -- fuel bound
          simp only [List.length_append, List.length_cons] at hfuel ⊢
          omega
        · -- queue members in bounds
          intro q hq
          rcases List.mem_append.1 hq with hq | hq
          · exact hLin q ((hqiff' q).1 hq).1
          · exact hq_in q (List.mem_cons_of_mem _ hq)
        · -- queue members revealed, empty, non-mine, newly revealed
          intro q hq
          rcases List.mem_append.1 hq with hq | hq
          · obtain ⟨hqL, hhid, hzero, hmine⟩ := (hqiff' q).1 hq
            refine ⟨hrevL q hqL hhid, ?_, ?_, hstep.hidden_back hhid⟩
            · rw [hsf.adj_eq q]; exact hzero
            · rw [hsf.mine_eq q]; exact hmine
          · obtain ⟨h1, h2, h3, h4⟩ := hq_rzm q (List.mem_cons_of_mem _ hq)
            exact ⟨hsf.revealed_persist h1, (hsf.adj_eq q).trans h2,
              (hsf.mine_eq q).trans h3, h4⟩
        · -- processed cells have no hidden neighbors
          intro p hp q hqadj
          rcases Finset.mem_insert.1 hp with rfl | hps
          · rw [← hL_def] at hqadj
            by_cases hhid : (b.cells q).state = CellState.Hidden
            · have := hrevL q hqadj hhid
              rw [this]
              intro hcon; cases hcon
            · exact hsf.not_hidden_persist hhid
          · exact hsf.not_hidden_persist (hseen p hps q hqadj)
        · -- coverage
          intro p hp hrev hhid0 hzero hmine
          by_cases hrevb : (b.cells p).state = CellState.Revealed
          · have hzb : (b.cells p).adjacent_mines = 0 := by rw [← hsf.adj_eq p]; exact hzero
            have hmb : (b.cells p).is_mine = false := by rw [← hsf.mine_eq p]; exact hmine
            rcases hcov p hp hrevb hhid0 hzb hmb with hs | hpq
            · exact Or.inl (Finset.mem_insert_of_mem hs)
            · rcases List.mem_cons.1 hpq with rfl | hpr
              · exact Or.inl (Finset.mem_insert_self _ _)
              · exact Or.inr (List.mem_append.2 (Or.inr hpr))
          · obtain ⟨hpL, hhidb⟩ := hchange p hrevb hrev
            refine Or.inr (List.mem_append.2 (Or.inl ?_))
            refine (hqiff' p).2 ⟨hpL, hhidb, ?_, ?_⟩
            · rw [← hsf.adj_eq p]; exact hzero
            · rw [← hsf.mine_eq p]; exact hmine
        · -- connectivity
          intro p hp hrev hhid0
          by_cases hrevb : (b.cells p).state = CellState.Revealed
          · exact (hconn p hp hrevb hhid0).mono (newlyRevealed_mono hsf)
          · obtain ⟨hpL, hhidb⟩ := hchange p hrevb hrev
            have hcur_conn : ConnectedIn (newlyRevealed w h b₀ res.1) start current :=
              (hconn current hcur_in hcur_rev hcur_hid0).mono (newlyRevealed_mono hsf)
            refine Relation.ReflTransGen.tail hcur_conn ⟨?_, ?_⟩
            · have := (mem_get_adjacent.1 (hL_def ▸ hpL)).2.2
              simpa using this
            · rw [mem_newlyRevealed]
              exact ⟨hp, hstep.hidden_back hhidb, hrev⟩
        · -- local witness
          intro p hp hrev hhid0
          by_cases hrevb : (b.cells p).state = CellState.Revealed
          · rcases hwit p hp hrevb hhid0 with h1 | ⟨a, hain, ha1, ha2, ha3, ha4, ha5⟩
            · exact Or.inl h1
            · exact Or.inr ⟨a, hain, ha1, hsf.revealed_persist ha2,
                (hsf.adj_eq a).trans ha3, (hsf.mine_eq a).trans ha4, ha5⟩
          · obtain ⟨hpL, _⟩ := hchange p hrevb hrev
            refine Or.inr ⟨current, hcur_in, ?_, hsf.revealed_persist hcur_rev,
              (hsf.adj_eq current).trans hcur_zero,
              (hsf.mine_eq current).trans hcur_mine, hcur_hid0⟩
            have := (mem_get_adjacent.1 (hL_def ▸ hpL)).2.2
            simpa using this

/-! ### Counter invariant (claim C2) -/

/-- The running-counter invariant: `revealed_count`/`flagged_count` agree
with the number of in-bounds cells in the corresponding state. -/
def CountInv (b : Board) : Prop :=
  b.revealed_count = ((allPos b.width b.height).filter
    (fun p => (b.cells p).state = CellState.Revealed)).card ∧
  b.flagged_count = ((allPos b.width b.height).filter
    (fun p => (b.cells p).state = CellState.Flagged)).card

instance (b : Board) : Decidable (CountInv b) := by
  unfold CountInv; infer_instance

theorem Cell.set_mine_state (c : Cell) : (c.set_mine).state = c.state := rfl

theorem Cell.set_adjacent_mines_state (c : Cell) (n : Nat) :
    (c.set_adjacent_mines n).state = c.state := by
  unfold Cell.set_adjacent_mines
  split <;> rfl

theorem calculate_adjacent_mines_state_eq (b : Board) :
    ∀ p, ((b.calculate_adjacent_mines).cells p).state = (b.cells p).state := by
  intro p
  unfold Board.calculate_adjacent_mines
  simp only
  split_ifs <;> simp [Cell.set_adjacent_mines_state]

theorem generate_mines_state_eq (b : Board) (r c : Nat) (mines : Finset (Nat × Nat)) :
    ∀ p, ((b.generate_mines r c mines).cells p).state = (b.cells p).state := by
  intro p
  unfold Board.generate_mines
  split_ifs with h1
  · rfl
  · rw [calculate_adjacent_mines_state_eq]
    simp only
    split_ifs <;> simp [Cell.set_mine_state]

theorem generate_mines_fields (b : Board) (r c : Nat) (mines : Finset (Nat × Nat)) :
    (b.generate_mines r c mines).width = b.width ∧
    (b.generate_mines r c mines).height = b.height ∧
    (b.generate_mines r c mines).mine_count = b.mine_count ∧
    (b.generate_mines r c mines).revealed_count = b.revealed_count ∧
    (b.generate_mines r c mines).flagged_count = b.flagged_count ∧
    (b.generate_mines r c mines).first_click = b.first_click := by
  unfold Board.generate_mines Board.calculate_adjacent_mines
  split_ifs <;> exact ⟨rfl, rfl, rfl, rfl, rfl, rfl⟩

theorem countInv_of_stepOk {b b' : Board} (hs : StepOk b.width b.height b b')
    (hinv : CountInv b) : CountInv b' := by
  obtain ⟨hrev, hflag⟩ := hinv
  constructor
  · rw [hs.count_eq, hrev, hs.width_eq, hs.height_eq]
    have hsplit : (allPos b.width b.height).filter
        (fun p => (b'.cells p).state = CellState.Revealed) =
        ((allPos b.width b.height).filter
          (fun p => (b.cells p).state = CellState.Revealed)) ∪
        newlyRevealed b.width b.height b b' := by
      ext p
      simp only [Finset.mem_union, Finset.mem_filter, mem_newlyRevealed]
      constructor
      · rintro ⟨hp, hrevp⟩
        rcases hs.state_mono p with he | ⟨hh, _⟩
        · exact Or.inl ⟨hp, he ▸ hrevp⟩
        · exact Or.inr ⟨hp, hh, hrevp⟩
      · rintro (⟨hp, hrevp⟩ | ⟨hp, _, hrevp⟩)
        · exact ⟨hp, hs.revealed_persist hrevp⟩
        · exact ⟨hp, hrevp⟩
    rw [hsplit, Finset.card_union_of_disjoint]
    rw [Finset.disjoint_left]
    intro p hp1 hp2
    rw [Finset.mem_filter] at hp1
    rw [mem_newlyRevealed] at hp2
    rw [hp1.2] at hp2
    cases hp2.2.1
  · rw [hs.flagged_eq, hflag, hs.width_eq, hs.height_eq]
    congr 1
    exact Finset.filter_congr fun p _ => (hs.flagged_iff p).symm

/-- `flood_loop` is a pure `StepOk` step whenever the queue stays in
bounds. -/
theorem flood_loop_stepOk (w h : Nat) :
    ∀ (fuel : Nat) (b : Board) (queue : List (Nat × Nat)) (seen : Finset (Nat × Nat)),
    (∀ q ∈ queue, q ∈ allPos w h) →
    StepOk w h b (flood_loop w h fuel b queue seen) := by
  intro fuel
  induction fuel with
  | zero =>
    intro b queue seen _
    simp only [flood_loop]
    exact StepOk.refl w h b
  | succ fuel ih =>
    intro b queue seen hq_in
    cases queue with
    | nil =>
      simp only [flood_loop]
      exact StepOk.refl w h b
    | cons current rest =>
      by_cases hc : current ∈ seen
      · have hgoal : flood_loop w h (fuel + 1) b (current :: rest) seen =
            flood_loop w h fuel b rest seen := by
          simp only [flood_loop, if_pos hc]
        rw [hgoal]
        exact ih b rest seen (fun q hq => hq_in q (List.mem_cons_of_mem _ hq))
      · set L := get_adjacent_positions current.1 current.2 w h with hL_def
        have hLin : ∀ q ∈ L, q ∈ allPos w h := fun q hq => mem_get_adjacent_allPos hq
        obtain ⟨hsf, _, _, hqiff⟩ := flood_fold_spec (w := w) (h := h) L b [] hLin
        set res := L.foldl (fun s r => flood_step s.1 s.2 r) (b, []) with hres_def
        have hgoal : flood_loop w h (fuel + 1) b (current :: rest) seen =
            flood_loop w h fuel res.1 (res.2 ++ rest) (insert current seen) := by
          simp only [flood_loop, if_neg hc]
        rw [hgoal]
        refine hsf.trans (ih res.1 (res.2 ++ rest) (insert current seen) ?_)
        intro q hq
        rcases List.mem_append.1 hq with hq | hq
        · rcases (hqiff q).1 hq with hcon | ⟨hqL, _⟩
          · exact absurd hcon (List.not_mem_nil q)
          · exact hLin q hqL
        · exact hq_in q (List.mem_cons_of_mem _ hq)

/-! ### Operation-level lemmas -/

theorem validate_position_iff {row col width height : Nat} :
    validate_position row col width height = true ↔ row < height ∧ col < width := by
  simp [validate_position]

theorem countInv_generate (b : Board) (r c : Nat) (mines : Finset (Nat × Nat))
    (hinv : CountInv b) : CountInv (b.generate_mines r c mines) := by
  obtain ⟨hw, hh, _, hrc, hfg, _⟩ := generate_mines_fields b r c mines
  obtain ⟨h1, h2⟩ := hinv
  constructor
  · rw [hrc, h1, hw, hh]
    congr 1
    exact Finset.filter_congr fun p _ => by rw [generate_mines_state_eq]
  · rw [hfg, h2, hw, hh]
    congr 1
    exact Finset.filter_congr fun p _ => by rw [generate_mines_state_eq]

/-- After the early guards of `reveal_cell` pass, the rest of the call is one
cell reveal followed by the flood fill; this is a `StepOk` step from the
post-generation board. -/
theorem reveal_cell_after_gen (b1 : Board) (row col : Nat)
    (hin : (row, col) ∈ allPos b1.width b1.height)
    (hhid : (b1.cells (row, col)).state = CellState.Hidden) :
    StepOk b1.width b1.height b1
      (if ((b1.cells (row, col)).adjacent_mines = 0 ∧ ¬ (b1.cells (row, col)).is_mine = true) then
        (Board.reveal_adjacent_empty_cells
          { b1 with cells := Function.update b1.cells (row, col) ((b1.cells (row, col)).reveal),
                    revealed_count := b1.revealed_count + 1 } row col)
      else
        { b1 with cells := Function.update b1.cells (row, col) ((b1.cells (row, col)).reveal),
                  revealed_count := b1.revealed_count + 1 }) ∧
    ((if ((b1.cells (row, col)).adjacent_mines = 0 ∧ ¬ (b1.cells (row, col)).is_mine = true) then
        (Board.reveal_adjacent_empty_cells
          { b1 with cells := Function.update b1.cells (row, col) ((b1.cells (row, col)).reveal),
                    revealed_count := b1.revealed_count + 1 } row col)
      else
        { b1 with cells := Function.update b1.cells (row, col) ((b1.cells (row, col)).reveal),
                  revealed_count := b1.revealed_count + 1 }).cells (row, col)).state =
      CellState.Revealed := by
  have hstep1 := StepOk.single_reveal (w := b1.width) (h := b1.height) b1 (row, col) hin hhid
  have hrev : ((Function.update b1.cells (row, col) ((b1.cells (row, col)).reveal)) (row, col)).state
      = CellState.Revealed := by
    rw [Function.update_apply, if_pos rfl, Cell.reveal_of_hidden hhid]
  split_ifs with hz
  · have hqin : ∀ q ∈ [((row : Nat), (col : Nat))], q ∈ allPos b1.width b1.height := by
      intro q hq
      simp only [List.mem_singleton] at hq
      subst hq
      exact hin
    have hfl := flood_loop_stepOk b1.width b1.height
      (10 * (b1.width * b1.height + 1))
      { b1 with cells := Function.update b1.cells (row, col) ((b1.cells (row, col)).reveal),
                revealed_count := b1.revealed_count + 1 } [(row, col)] ∅ hqin
    constructor
    · refine hstep1.trans ?_
      unfold Board.reveal_adjacent_empty_cells
      exact hfl
    · show ((flood_loop b1.width b1.height _ _ _ _).cells (row, col)).state = _
      exact hfl.revealed_persist hrev
  · exact ⟨hstep1, hrev⟩

theorem reveal_cell_stepOk (b : Board) (row col : Nat) (mines : Finset (Nat × Nat))
    (hfc : b.first_click = false) :
    StepOk b.width b.height b (b.reveal_cell row col mines).1 := by
  by_cases hv : validate_position row col b.width b.height = true
  · by_cases hcr : (b.cells (row, col)).can_reveal = true
    · have hhid : (b.cells (row, col)).state = CellState.Hidden := Cell.can_reveal_iff.1 hcr
      have hin : (row, col) ∈ allPos b.width b.height := by
        rw [validate_position_iff] at hv
        exact mem_allPos.2 hv
      have hb1 : (if b.first_click then
          { b.generate_mines row col mines with first_click := false } else b) = b := by
        rw [hfc]
        simp
      simp only [Board.reveal_cell, hv, not_true_eq_false, if_false, hcr,
        not_false_eq_true, if_true, hb1]
      rw [apply_ite (Prod.fst : Board × Bool → Board)]
      exact (reveal_cell_after_gen b row col hin hhid).1
    · simp only [Board.reveal_cell, hv, not_true_eq_false, if_false, hcr,
        not_false_eq_true, if_true]
      exact StepOk.refl _ _ _
  · simp only [Board.reveal_cell, hv]
    simp only [Bool.not_eq_true] at hv
    simp [hv]
    exact StepOk.refl _ _ _

theorem Cell.flag_of_hidden {c : Cell} (h : c.state = CellState.Hidden) :
    c.flag = { c with state := CellState.Flagged } := by
  simp [Cell.flag, Cell.can_flag, h, CellState.can_flag_state, CellState.flag_state]

theorem Cell.flag_of_flagged {c : Cell} (h : c.state = CellState.Flagged) :
    c.flag = { c with state := CellState.Hidden } := by
  simp [Cell.flag, Cell.can_flag, h, CellState.can_flag_state, CellState.flag_state]

theorem filter_update_card_sub {s : Finset (Nat × Nat)} {f : Nat × Nat → Cell}
    {p : Nat × Nat} {c : Cell} {st : CellState}
    (hp : p ∈ s) (hc : ¬ c.state = st) (hf : (f p).state = st) :
    (s.filter fun q => (Function.update f p c q).state = st).card + 1 =
      (s.filter fun q => (f q).state = st).card := by
  have heq : (s.filter fun q => (Function.update f p c q).state = st) =
      (s.filter fun q => (f q).state = st).erase p := by
    ext q
    by_cases hq : q = p
    · subst hq
      simp [Function.update_apply, hc]
    · simp [Function.update_apply, hq, Finset.mem_erase]
  rw [heq, Finset.card_erase_of_mem (Finset.mem_filter.2 ⟨hp, hf⟩)]
  have : 0 < (s.filter fun q => (f q).state = st).card :=
    Finset.card_pos.2 ⟨p, Finset.mem_filter.2 ⟨hp, hf⟩⟩
  omega

theorem countInv_flag (b : Board) (row col : Nat) (hinv : CountInv b) :
    CountInv (b.flag_cell row col).1 := by
  by_cases hv : validate_position row col b.width b.height = true
  · by_cases hcf : (b.cells (row, col)).can_flag = true
    · have hin : (row, col) ∈ allPos b.width b.height :=
        mem_allPos.2 (validate_position_iff.1 hv)
      obtain ⟨h1, h2⟩ := hinv
      rcases Cell.can_flag_iff.1 hcf with hhid | hflag
      · -- hidden cell: gets flagged, flagged_count goes up by one
        have hwf : (b.cells (row, col)).is_flagged = false := by
          simp [Cell.is_flagged, hhid]
        have hcf' : ((b.cells (row, col)).flag).is_flagged = true := by
          rw [Cell.flag_of_hidden hhid]
          simp [Cell.is_flagged]
        simp only [Board.flag_cell, hv, not_true_eq_false, if_false, hcf,
          not_false_eq_true, if_true]
        rw [if_neg (by rw [hwf]; simp), if_pos (by rw [hwf, hcf']; simp)]
        constructor
        · show b.revealed_count = ((allPos b.width b.height).filter
            (fun p => ((Function.update b.cells (row, col) ((b.cells (row, col)).flag)) p).state
              = CellState.Revealed)).card
          rw [filter_update_congr (by
            rw [Cell.flag_of_hidden hhid, hhid]
            constructor
            · intro hcon; cases hcon
            · intro hcon; cases hcon)]
          exact h1
        · show b.flagged_count + 1 = ((allPos b.width b.height).filter
            (fun p => ((Function.update b.cells (row, col) ((b.cells (row, col)).flag)) p).state
              = CellState.Flagged)).card
          rw [filter_update_card_add hin
            (by rw [Cell.flag_of_hidden hhid])
            (by rw [hhid]; intro hcon; cases hcon)]
          omega
      · -- flagged cell: gets unflagged, flagged_count goes down by one
        have hwf : (b.cells (row, col)).is_flagged = true := by
          simp [Cell.is_flagged, hflag]
        have hcf' : ((b.cells (row, col)).flag).is_flagged = false := by
          rw [Cell.flag_of_flagged hflag]
          simp [Cell.is_flagged]
        simp only [Board.flag_cell, hv, not_true_eq_false, if_false, hcf,
          not_false_eq_true, if_true]
        rw [if_pos (by rw [hwf, hcf']; simp)]
        constructor
        · show b.revealed_count = ((allPos b.width b.height).filter
            (fun p => ((Function.update b.cells (row, col) ((b.cells (row, col)).flag)) p).state
              = CellState.Revealed)).card
          rw [filter_update_congr (by
            rw [Cell.flag_of_flagged hflag, hflag]
            constructor
            · intro hcon; cases hcon
            · intro hcon; cases hcon)]
          exact h1
        · show b.flagged_count - 1 = ((allPos b.width b.height).filter
            (fun p => ((Function.update b.cells (row, col) ((b.cells (row, col)).flag)) p).state
              = CellState.Flagged)).card
          have hsub := filter_update_card_sub (s := allPos b.width b.height) (f := b.cells)
            (c := (b.cells (row, col)).flag) hin
            (by rw [Cell.flag_of_flagged hflag]; intro hcon; cases hcon)
            hflag
          omega
    · simp only [Board.flag_cell, hv, not_true_eq_false, if_false, hcf,
        not_false_eq_true, if_true]
      exact hinv
  · simp only [Board.flag_cell, hv]
    simp only [Bool.not_eq_true] at hv
    simp [hv]
    exact hinv

theorem countInv_reveal (b : Board) (row col : Nat) (mines : Finset (Nat × Nat))
    (hinv : CountInv b) : CountInv (b.reveal_cell row col mines).1 := by
  by_cases hv : validate_position row col b.width b.height = true
  · by_cases hcr : (b.cells (row, col)).can_reveal = true
    · have hhid : (b.cells (row, col)).state = CellState.Hidden := Cell.can_reveal_iff.1 hcr
      have hin : (row, col) ∈ allPos b.width b.height :=
        mem_allPos.2 (validate_position_iff.1 hv)
      by_cases hfc : b.first_click = true
      · -- generation first, then the reveal + flood is a StepOk step
        simp only [Board.reveal_cell, hv, not_true_eq_false, if_false, hcr,
          not_false_eq_true, if_true, hfc]
        rw [apply_ite (Prod.fst : Board × Bool → Board)]
        obtain ⟨hw, hh, _, _, _, _⟩ := generate_mines_fields b row col mines
        have hin1 : (row, col) ∈ allPos
            ({ b.generate_mines row col mines with first_click := false } : Board).width
            ({ b.generate_mines row col mines with first_click := false } : Board).height := by
          show (row, col) ∈ allPos (b.generate_mines row col mines).width
            (b.generate_mines row col mines).height
          rw [hw, hh]
          exact hin
        have hhid1 : (({ b.generate_mines row col mines with first_click := false } : Board).cells
            (row, col)).state = CellState.Hidden := by
          show ((b.generate_mines row col mines).cells (row, col)).state = CellState.Hidden
          rw [generate_mines_state_eq]
          exact hhid
        exact countInv_of_stepOk
          (reveal_cell_after_gen _ row col hin1 hhid1).1
          (countInv_generate b row col mines hinv)
      · simp only [Bool.not_eq_true] at hfc
        have hb1 : (if b.first_click = true then
            { b.generate_mines row col mines with first_click := false } else b) = b := by
          rw [hfc]; simp
        simp only [Board.reveal_cell, hv, not_true_eq_false, if_false, hcr,
          not_false_eq_true, if_true, hb1]
        rw [apply_ite (Prod.fst : Board × Bool → Board)]
        exact countInv_of_stepOk (reveal_cell_after_gen b row col hin hhid).1 hinv
    · simp only [Board.reveal_cell, hv, not_true_eq_false, if_false, hcr,
        not_false_eq_true, if_true]
      exact hinv
  · simp only [Board.reveal_cell, hv]
    simp only [Bool.not_eq_true] at hv
    simp [hv]
    exact hinv

theorem countInv_expand_fold (mines : Finset (Nat × Nat)) :
    ∀ (l : List (Nat × Nat)) (st : Board × Finset (Nat × Nat)), CountInv st.1 →
    CountInv ((l.foldl
      (fun acc q =>
        let res := acc.1.reveal_cell q.1 q.2 mines
        if res.2 then (res.1, insert q acc.2) else (res.1, acc.2)) st)).1 := by
  intro l
  induction l with
  | nil => intro st h; exact h
  | cons q l' ih =>
    intro st h
    rw [List.foldl_cons]
    apply ih
    have hboard : ((fun (acc : Board × Finset (Nat × Nat)) (q : Nat × Nat) =>
        let res := acc.1.reveal_cell q.1 q.2 mines
        if res.2 then (res.1, insert q acc.2) else (res.1, acc.2)) st q).1 =
        (st.1.reveal_cell q.1 q.2 mines).1 := by
      simp only
      split_ifs <;> rfl
    rw [hboard]
    exact countInv_reveal st.1 q.1 q.2 mines h

theorem countInv_expand (b : Board) (row col : Nat) (mines : Finset (Nat × Nat))
    (hinv : CountInv b) : CountInv (b.expand_adjacent_cells row col mines).1 := by
  simp only [Board.expand_adjacent_cells]
  split_ifs <;> first
    | exact hinv
    | exact countInv_expand_fold mines _ (b, ∅) hinv

/-- The three public board operations as one action type; `reveal` and
`expand` carry the set that `random.sample` would return if the move
triggers mine generation. -/
inductive GameOp where
  | reveal (row col : Nat) (mines : Finset (Nat × Nat))
  | flag (row col : Nat)
  | expand (row col : Nat) (mines : Finset (Nat × Nat))

/-- Run one public board operation, keeping the resulting board. -/
def applyOp (b : Board) : GameOp → Board
  | .reveal row col mines => (b.reveal_cell row col mines).1
  | .flag row col => (b.flag_cell row col).1
  | .expand row col mines => (b.expand_adjacent_cells row col mines).1

theorem countInv_applyOp (b : Board) (op : GameOp) (hinv : CountInv b) :
    CountInv (applyOp b op) := by
  cases op with
  | reveal row col mines => exact countInv_reveal b row col mines hinv
  | flag row col => exact countInv_flag b row col hinv
  | expand row col mines => exact countInv_expand b row col mines hinv

theorem countInv_init (w h mc : Nat) : CountInv (Board.init w h mc) := by
  constructor <;>
  · show (0 : Nat) = _
    rw [Finset.filter_false_of_mem, Finset.card_empty]
    intro p _
    simp [Board.init, Cell.init]

/-- C2: for every board and every sequence of the public operations reveal,
flag and expandAdjacent, after each operation `revealed_count` equals the
number of Revealed cells and `flagged_count` the number of Flagged cells
(every prefix of every operation sequence is itself such a sequence, so the
statement covers the state after each operation). -/
theorem claim_C2 (w h mc : Nat) (ops : List GameOp) :
    CountInv (ops.foldl applyOp (Board.init w h mc)) := by
  suffices hgen : ∀ (l : List GameOp) (b : Board), CountInv b → CountInv (l.foldl applyOp b) from
    hgen ops (Board.init w h mc) (countInv_init w h mc)
  intro l
  induction l with
  | nil => exact fun b hb => hb
  | cons op l' ih =>
    intro b hb
    rw [List.foldl_cons]
    exact ih (applyOp b op) (countInv_applyOp b op hb)

/-! ### Mine generation on a fresh board -/

theorem length_get_adjacent_le8 (row col width height : Nat) :
    (get_adjacent_positions row col width height).length ≤ 8 := by
  rw [get_adjacent_eq_filterMap]
  have hsplit : adjDeltas =
      [((-1 : Int), (-1 : Int)), (-1, 0), (-1, 1), (0, -1)] ++ [((0 : Int), (0 : Int))] ++
        [((0 : Int), (1 : Int)), (1, -1), (1, 0), (1, 1)] := rfl
  rw [hsplit, List.filterMap_append, List.filterMap_append, List.length_append,
    List.length_append]
  have h0 : List.filterMap (adjOption row col width height) [((0 : Int), (0 : Int))] = [] := by
    simp [adjOption]
  rw [h0]
  have h1 := List.length_filterMap_le (adjOption row col width height)
    [((-1 : Int), (-1 : Int)), (-1, 0), (-1, 1), (0, -1)]
  have h2 := List.length_filterMap_le (adjOption row col width height)
    [((0 : Int), (1 : Int)), (1, -1), (1, 0), (1, 1)]
  simp only [List.length_cons, List.length_nil] at h1 h2 ⊢
  omega

theorem countP_mem_eq_card_inter (l : List (Nat × Nat)) (hnd : l.Nodup)
    (s : Finset (Nat × Nat)) :
    l.countP (fun q => decide (q ∈ s)) = (l.toFinset ∩ s).card := by
  rw [List.countP_eq_length_filter]
  have h1 : (l.filter (fun q => decide (q ∈ s))).toFinset = l.toFinset ∩ s := by
    ext q
    simp [List.mem_filter]
  rw [← h1, List.card_toFinset, List.Nodup.dedup (hnd.filter _)]

theorem Cell.set_adjacent_mines_is_mine (c : Cell) (n : Nat) :
    (c.set_adjacent_mines n).is_mine = c.is_mine := by
  unfold Cell.set_adjacent_mines
  split <;> rfl

theorem calculate_adjacent_mines_is_mine_eq (b : Board) :
    ∀ p, ((b.calculate_adjacent_mines).cells p).is_mine = (b.cells p).is_mine := by
  intro p
  unfold Board.calculate_adjacent_mines
  simp only
  split_ifs <;> simp [Cell.set_adjacent_mines_is_mine]

theorem calculate_adjacent_mines_mp (b : Board) :
    (b.calculate_adjacent_mines).mine_positions = b.mine_positions := rfl

theorem count_adjacent_mines_le8 (b : Board) (row col : Nat) :
    b.count_adjacent_mines row col ≤ 8 := by
  unfold Board.count_adjacent_mines
  exact le_trans (List.countP_le_length _) (length_get_adjacent_le8 _ _ _ _)

theorem calculate_adjacent_mines_adj (b : Board) (p : Nat × Nat) :
    ((b.calculate_adjacent_mines).cells p).adjacent_mines =
      if p.1 < b.height ∧ p.2 < b.width ∧ ¬ (b.cells p).is_mine = true then
        b.count_adjacent_mines p.1 p.2
      else (b.cells p).adjacent_mines := by
  unfold Board.calculate_adjacent_mines
  simp only
  split_ifs with hc
  · unfold Cell.set_adjacent_mines
    rw [if_pos (count_adjacent_mines_le8 b p.1 p.2)]
  · rfl

/-- What `generate_mines` computes on a board whose `mine_positions` is still
empty, for an arbitrary sampled set `mines`. -/
theorem generate_mines_char (b : Board) (sr sc : Nat) (mines : Finset (Nat × Nat))
    (hmp : b.mine_positions = ∅) :
    (b.generate_mines sr sc mines).mine_positions = mines ∧
    (∀ p, ((b.generate_mines sr sc mines).cells p).is_mine =
      ((b.cells p).is_mine || decide (p ∈ mines))) ∧
    (∀ p, ((b.generate_mines sr sc mines).cells p).adjacent_mines =
      if p.1 < b.height ∧ p.2 < b.width ∧
          ¬ ((b.cells p).is_mine || decide (p ∈ mines)) = true then
        (get_adjacent_positions p.1 p.2 b.width b.height).countP
          (fun q => (b.cells q).is_mine || decide (q ∈ mines))
      else (b.cells p).adjacent_mines) := by
  unfold Board.generate_mines
  rw [if_neg (by simp [hmp])]
  simp only
  refine ⟨rfl, ?_, ?_⟩
  · intro p
    rw [calculate_adjacent_mines_is_mine_eq]
    show ((if p ∈ mines then (b.cells p).set_mine else b.cells p)).is_mine = _
    by_cases hq : p ∈ mines <;> simp [hq, Cell.set_mine]
  · intro p
    rw [calculate_adjacent_mines_adj]
    have hcell : ∀ q, ((if q ∈ mines then (b.cells q).set_mine else b.cells q)).is_mine =
        ((b.cells q).is_mine || decide (q ∈ mines)) := by
      intro q
      by_cases hq : q ∈ mines <;> simp [hq, Cell.set_mine]
    dsimp only
    refine if_congr (and_congr Iff.rfl (and_congr Iff.rfl (not_congr ?_))) ?_ ?_
    · rw [hcell p]
    · unfold Board.count_adjacent_mines
      dsimp only
      apply List.countP_congr
      intro q _
      rw [hcell q]
    · by_cases hq : p ∈ mines <;> simp [hq, Cell.set_mine]

theorem generate_mines_of_ne (b : Board) (sr sc : Nat) (mines' : Finset (Nat × Nat))
    (hne : b.mine_positions ≠ ∅) : b.generate_mines sr sc mines' = b := by
  unfold Board.generate_mines
  rw [if_pos hne]

/-- Re-running generation with an empty sample on a mine-free board changes
no `is_mine`/`adjacent_mines` field and no `mine_positions` (this is the
`mine_count = 0` corner of the at-most-once guarantee: the guard re-runs the
body, but the body recomputes the same values). -/
theorem generate_mines_noop (b : Board) (sr sc : Nat) (mines' : Finset (Nat × Nat))
    (hmine0 : ∀ p, (b.cells p).is_mine = false)
    (hadj0 : ∀ p, (b.cells p).adjacent_mines = 0)
    (hmp : b.mine_positions = ∅) (hm' : mines' = ∅) :
    (b.generate_mines sr sc mines').mine_positions = b.mine_positions ∧
    (∀ p, ((b.generate_mines sr sc mines').cells p).is_mine = (b.cells p).is_mine ∧
      ((b.generate_mines sr sc mines').cells p).adjacent_mines = (b.cells p).adjacent_mines) := by
  subst hm'
  obtain ⟨h1, h2, h3⟩ := generate_mines_char b sr sc ∅ hmp
  refine ⟨by rw [h1, hmp], ?_⟩
  intro p
  constructor
  · rw [h2 p]
    simp
  · rw [h3 p]
    split_ifs with hc
    · rw [hadj0 p]
      rw [List.countP_eq_zero]
      intro q _
      simp [hmine0 q]
    · rfl

/-- The first reveal on a fresh board succeeds and, relative to the
intermediate post-generation board, performs a plain `StepOk` step. -/
theorem reveal_cell_fresh_spec (w h mc r c : Nat) (mines : Finset (Nat × Nat))
    (hin : (r, c) ∈ allPos w h) :
    ((Board.init w h mc).reveal_cell r c mines).2 = true ∧
    StepOk w h
      ({ (Board.init w h mc).generate_mines r c mines with first_click := false })
      ((Board.init w h mc).reveal_cell r c mines).1 := by
  have hb := mem_allPos.1 hin
  have hv : validate_position r c (Board.init w h mc).width (Board.init w h mc).height = true :=
    validate_position_iff.2 ⟨hb.1, hb.2⟩
  have hcr : ((Board.init w h mc).cells (r, c)).can_reveal = true := rfl
  have hfc : (Board.init w h mc).first_click = true := rfl
  obtain ⟨hw, hh, _, _, _, _⟩ := generate_mines_fields (Board.init w h mc) r c mines
  constructor
  · simp only [Board.reveal_cell, hv, not_true_eq_false, if_false, hcr,
      not_false_eq_true, if_true, hfc]
    rw [apply_ite Prod.snd]
    simp
  · simp only [Board.reveal_cell, hv, not_true_eq_false, if_false, hcr,
      not_false_eq_true, if_true, hfc]
    rw [apply_ite Prod.fst]
    have hin1 : (r, c) ∈ allPos
        ({ (Board.init w h mc).generate_mines r c mines with first_click := false } : Board).width
        ({ (Board.init w h mc).generate_mines r c mines with first_click := false } : Board).height := by
      show (r, c) ∈ allPos ((Board.init w h mc).generate_mines r c mines).width
        ((Board.init w h mc).generate_mines r c mines).height
      rw [hw, hh]
      exact hin
    have hhid1 : (({ (Board.init w h mc).generate_mines r c mines with
        first_click := false } : Board).cells (r, c)).state = CellState.Hidden := by
      show (((Board.init w h mc).generate_mines r c mines).cells (r, c)).state = CellState.Hidden
      rw [generate_mines_state_eq]
      rfl
    have hstep := (reveal_cell_after_gen
      ({ (Board.init w h mc).generate_mines r c mines with first_click := false }) r c hin1 hhid1).1
    have hweq : ({ (Board.init w h mc).generate_mines r c mines with
        first_click := false } : Board).width = w := hw
    have hheq : ({ (Board.init w h mc).generate_mines r c mines with
        first_click := false } : Board).height = h := hh
    rw [hweq, hheq] at hstep
    exact hstep

/-- Summary of the board after the first successful reveal of a fresh board:
the mine set is as sampled, the mine flags agree with it, and the adjacency
counts are the mine counts over the in-bounds 8-neighborhoods. -/
theorem reveal_cell_fresh_char (w h mc r c : Nat) (mines : Finset (Nat × Nat))
    (hin : (r, c) ∈ allPos w h) :
    ((Board.init w h mc).reveal_cell r c mines).2 = true ∧
    ((Board.init w h mc).reveal_cell r c mines).1.mine_positions = mines ∧
    (∀ p, (((Board.init w h mc).reveal_cell r c mines).1.cells p).is_mine =
      decide (p ∈ mines)) ∧
    (∀ p, (((Board.init w h mc).reveal_cell r c mines).1.cells p).adjacent_mines =
      if p.1 < h ∧ p.2 < w ∧ p ∉ mines then
        (get_adjacent_positions p.1 p.2 w h).countP (fun q => decide (q ∈ mines))
      else 0) := by
  obtain ⟨hsucc, hstep⟩ := reveal_cell_fresh_spec w h mc r c mines hin
  obtain ⟨hmp, hmine, hadj⟩ :=
    generate_mines_char (Board.init w h mc) r c mines (by simp [Board.init])
  refine ⟨hsucc, ?_, ?_, ?_⟩
  · rw [hstep.mp_eq]
    exact hmp
  · intro p
    rw [hstep.mine_eq p]
    show (((Board.init w h mc).generate_mines r c mines).cells p).is_mine = _
    rw [hmine p]
    simp [Board.init, Cell.init]
  · intro p
    rw [hstep.adj_eq p]
    show (((Board.init w h mc).generate_mines r c mines).cells p).adjacent_mines = _
    rw [hadj p]
    by_cases hpm : p ∈ mines
    · rw [if_neg (by simp [Board.init, Cell.init, hpm]),
        if_neg (by intro hcon; exact hcon.2.2 hpm)]
      simp [Board.init, Cell.init]
    · by_cases hbound : p.1 < h ∧ p.2 < w
      · rw [if_pos ⟨hbound.1, hbound.2, by simp [Board.init, Cell.init, hpm]⟩,
          if_pos ⟨hbound.1, hbound.2, hpm⟩]
        exact List.countP_congr (fun q _ => by simp [Board.init, Cell.init])
      · rw [if_neg (by intro hcon; exact hbound ⟨hcon.1, hcon.2.1⟩),
          if_neg (by intro hcon; exact hbound ⟨hcon.1, hcon.2.1⟩)]
        simp [Board.init, Cell.init]

/-- C1: for a fresh board and any in-bounds position `(r, c)`, after the
first successful reveal at `(r, c)` (whose sampled mine set satisfies the
`random.sample` contract `SampleValid`), `mine_positions` has cardinality
exactly `mine_count` and does not contain `(r, c)`, and any later call to
`generate_mines` (with any contract-satisfying sample) leaves
`mine_positions` and every cell's `is_mine`/`adjacent_mines` unchanged:
generation effectively happens at most once per board. -/
theorem claim_C1 (w h mc r c : Nat) (mines : Finset (Nat × Nat))
    (hin : (r, c) ∈ allPos w h)
    (hsv : SampleValid w h mc (r, c) mines) :
    ((Board.init w h mc).reveal_cell r c mines).2 = true ∧
    ((Board.init w h mc).reveal_cell r c mines).1.mine_positions.card = mc ∧
    (r, c) ∉ ((Board.init w h mc).reveal_cell r c mines).1.mine_positions ∧
    ∀ (sr sc : Nat) (mines' : Finset (Nat × Nat)), SampleValid w h mc (sr, sc) mines' →
      ((((Board.init w h mc).reveal_cell r c mines).1.generate_mines sr sc
          mines').mine_positions
        = ((Board.init w h mc).reveal_cell r c mines).1.mine_positions ∧
      ∀ p, ((((Board.init w h mc).reveal_cell r c mines).1.generate_mines sr sc
            mines').cells p).is_mine
          = (((Board.init w h mc).reveal_cell r c mines).1.cells p).is_mine ∧
        ((((Board.init w h mc).reveal_cell r c mines).1.generate_mines sr sc
            mines').cells p).adjacent_mines
          = (((Board.init w h mc).reveal_cell r c mines).1.cells p).adjacent_mines) := by
  obtain ⟨hsucc, hmp, hmine, hadj⟩ := reveal_cell_fresh_char w h mc r c mines hin
  refine ⟨hsucc, by rw [hmp]; exact hsv.2, ?_, ?_⟩
  · intro hcon
    rw [hmp] at hcon
    have := hsv.1 hcon
    rw [Finset.mem_sdiff] at this
    exact this.2 (Finset.mem_singleton_self _)
  · intro sr sc mines' hsv'
    by_cases hne : mines = ∅
    · have hmc0 : mc = 0 := by rw [← hsv.2, hne]; rfl
    
      have hm'0 : mines' = ∅ := Finset.card_eq_zero.1 (by rw [hsv'.2, hmc0])
      exact generate_mines_noop _ sr sc mines'
        (fun p => by rw [hmine p, hne]; simp)
        (fun p => by rw [hadj p, hne]; split_ifs <;> simp)
        (by rw [hmp, hne]) hm'0
    · rw [generate_mines_of_ne _ sr sc mines' (by rw [hmp]; exact hne)]
      exact ⟨rfl, fun p => ⟨rfl, rfl⟩⟩

theorem claim_C1_witness :
    ((Board.init 3 3 1).reveal_cell 0 0 {(1, 1)}).2 = true ∧
    ((Board.init 3 3 1).reveal_cell 0 0 {(1, 1)}).1.mine_positions.card = 1 ∧
    (0, 0) ∉ ((Board.init 3 3 1).reveal_cell 0 0 {(1, 1)}).1.mine_positions ∧
    (((Board.init 3 3 1).reveal_cell 0 0 {(1, 1)}).1.generate_mines 2 2
        {(0, 1)}).mine_positions
      = ((Board.init 3 3 1).reveal_cell 0 0 {(1, 1)}).1.mine_positions := by
  have h := claim_C1 3 3 1 0 0 {(1, 1)} (by decide) (by decide)
  exact ⟨h.1, h.2.1, h.2.2.1, (h.2.2.2 2 2 {(0, 1)} (by decide)).1⟩

/-- C3: after mine generation, every in-bounds non-mine cell's
`adjacent_mines` equals the number of positions of `mine_positions` among
its in-bounds 8-compass neighbors. -/
theorem claim_C3 (w h mc safe_r safe_c : Nat) (mines : Finset (Nat × Nat))
    (hsv : SampleValid w h mc (safe_r, safe_c) mines) :
    ∀ p ∈ allPos w h,
      (((Board.init w h mc).generate_mines safe_r safe_c mines).cells p).is_mine = false →
      (((Board.init w h mc).generate_mines safe_r safe_c mines).cells p).adjacent_mines =
        ((get_adjacent_positions p.1 p.2 w h).toFinset ∩
          ((Board.init w h mc).generate_mines safe_r safe_c mines).mine_positions).card := by
  obtain ⟨h1, h2, h3⟩ :=
    generate_mines_char (Board.init w h mc) safe_r safe_c mines (by simp [Board.init])
  intro p hp hmine
  have hpm : p ∉ mines := by
    have h4 := (h2 p).symm.trans hmine
    simp only [Board.init, Cell.init, Bool.false_or, decide_eq_false_iff_not] at h4
    exact h4
  rw [h1, h3 p]
  rw [if_pos ⟨(mem_allPos.1 hp).1, (mem_allPos.1 hp).2,
    by simp [Board.init, Cell.init, hpm]⟩]
  have hcongr : (get_adjacent_positions p.1 p.2 (Board.init w h mc).width
      (Board.init w h mc).height).countP
        (fun q => ((Board.init w h mc).cells q).is_mine || decide (q ∈ mines)) =
      (get_adjacent_positions p.1 p.2 w h).countP (fun q => decide (q ∈ mines)) :=
    List.countP_congr (fun q _ => by simp [Board.init, Cell.init])
  rw [hcongr]
  exact countP_mem_eq_card_inter _ (nodup_get_adjacent p.1 p.2 w h) mines

theorem claim_C3_witness :
    (((Board.init 3 3 2).generate_mines 1 1 {(0, 1), (2, 2)}).cells (0, 0)).adjacent_mines =
      ((get_adjacent_positions 0 0 3 3).toFinset ∩
        ((Board.init 3 3 2).generate_mines 1 1 {(0, 1), (2, 2)}).mine_positions).card :=
  claim_C3 3 3 2 1 1 {(0, 1), (2, 2)} (by decide) (0, 0) (by decide) (by decide)

/-! ### Claim C4: flood fill closure -/

theorem card_allPos (w h : Nat) : (allPos w h).card = w * h := by
  rw [allPos, Finset.card_product]
  simp [Nat.mul_comm]

/-- A board whose adjacency counts are consistent with its mine flags on
every in-bounds non-mine cell; this is what mine generation establishes
(claim C3) and what every later operation preserves. -/
def AdjConsistent (b : Board) : Prop :=
  ∀ p ∈ allPos b.width b.height, (b.cells p).is_mine = false →
    (b.cells p).adjacent_mines =
      (get_adjacent_positions p.1 p.2 b.width b.height).countP
        (fun q => (b.cells q).is_mine)

instance (b : Board) : Decidable (AdjConsistent b) := by
  unfold AdjConsistent
  infer_instance

/-- On a post-generation board, revealing a hidden empty non-mine cell takes
exactly the one-cell-reveal-then-flood path. -/
theorem reveal_cell_flood_eq (b : Board) (r c : Nat) (mines : Finset (Nat × Nat))
    (hfc : b.first_click = false)
    (hin : (r, c) ∈ allPos b.width b.height)
    (hhid : (b.cells (r, c)).state = CellState.Hidden)
    (hzero : (b.cells (r, c)).adjacent_mines = 0)
    (hmine : (b.cells (r, c)).is_mine = false) :
    b.reveal_cell r c mines =
      (flood_loop b.width b.height (10 * (b.width * b.height + 1))
        { b with cells := Function.update b.cells (r, c) ((b.cells (r, c)).reveal),
                 revealed_count := b.revealed_count + 1 } [(r, c)] ∅, true) := by
  have hb := mem_allPos.1 hin
  have hv : validate_position r c b.width b.height = true :=
    validate_position_iff.2 ⟨hb.1, hb.2⟩
  have hcr : (b.cells (r, c)).can_reveal = true := Cell.can_reveal_iff.2 hhid
  have hb1 : (if b.first_click = true then
      { b.generate_mines r c mines with first_click := false } else b) = b := by
    rw [hfc]
    simp
  simp only [Board.reveal_cell, hv, not_true_eq_false, if_false, hcr, not_false_eq_true,
    if_true, hb1]
  rw [if_pos ⟨hzero, by rw [hmine]; simp⟩]
  rfl

/-- C4: on a post-generation board with consistent adjacency counts,
revealing a hidden non-mine cell with `adjacent_mines = 0` succeeds and the
set `R` of newly revealed cells (1) contains the start, (2) is connected to
the start inside `R` via 8-neighbor steps, (3) has no Hidden neighbor next
to any of its empty cells — i.e. every boundary cell of the region, a
revealed cell with a still-unexplored neighbor, has `adjacent_mines > 0` —
(4) leaves every previously Flagged cell Flagged (never auto-revealed), and
(5) increments `revealed_count` exactly once per newly revealed cell (no
cell is revealed more than once). -/
theorem claim_C4 (b : Board) (r c : Nat) (mines : Finset (Nat × Nat))
    (hcons : AdjConsistent b) (hfc : b.first_click = false)
    (hin : (r, c) ∈ allPos b.width b.height)
    (hhid : (b.cells (r, c)).state = CellState.Hidden)
    (hmine : (b.cells (r, c)).is_mine = false)
    (hzero : (b.cells (r, c)).adjacent_mines = 0) :
    (b.reveal_cell r c mines).2 = true ∧
    (r, c) ∈ newlyRevealed b.width b.height b (b.reveal_cell r c mines).1 ∧
    (∀ p ∈ newlyRevealed b.width b.height b (b.reveal_cell r c mines).1,
      ConnectedIn (newlyRevealed b.width b.height b (b.reveal_cell r c mines).1) (r, c) p) ∧
    (∀ p ∈ newlyRevealed b.width b.height b (b.reveal_cell r c mines).1,
      ((b.reveal_cell r c mines).1.cells p).adjacent_mines = 0 →
      ∀ q ∈ get_adjacent_positions p.1 p.2 b.width b.height,
        ¬ ((b.reveal_cell r c mines).1.cells q).state = CellState.Hidden) ∧
    (∀ p, (b.cells p).state = CellState.Flagged →
      ((b.reveal_cell r c mines).1.cells p).state = CellState.Flagged) ∧
    (b.reveal_cell r c mines).1.revealed_count =
      b.revealed_count + (newlyRevealed b.width b.height b (b.reveal_cell r c mines).1).card := by
  rw [reveal_cell_flood_eq b r c mines hfc hin hhid hzero hmine]
  have hb2cell : ∀ q, (Function.update b.cells (r, c) ((b.cells (r, c)).reveal)) q =
      if q = (r, c) then { b.cells (r, c) with state := CellState.Revealed } else b.cells q := by
    intro q
    rw [Function.update_apply, Cell.reveal_of_hidden hhid]
  obtain ⟨hstepF, hboundary, hconnF, hwitF⟩ := flood_loop_spec b.width b.height b (r, c)
    (10 * (b.width * b.height + 1))
    { b with cells := Function.update b.cells (r, c) ((b.cells (r, c)).reveal),
             revealed_count := b.revealed_count + 1 }
    [(r, c)] ∅
    (by rw [Finset.sdiff_empty, card_allPos, List.length_singleton]; omega)
    (by intro q hq; simp only [List.mem_singleton] at hq; subst hq; exact hin)
    (by
      intro q hq
      simp only [List.mem_singleton] at hq
      subst hq
      have h1 : (Function.update b.cells (r, c) ((b.cells (r, c)).reveal)) (r, c) =
          { b.cells (r, c) with state := CellState.Revealed } := by
        rw [hb2cell (r, c), if_pos rfl]
      refine ⟨?_, ?_, ?_, hhid⟩
      · show ((Function.update b.cells (r, c) ((b.cells (r, c)).reveal)) (r, c)).state = _
        rw [h1]
      · show ((Function.update b.cells (r, c) ((b.cells (r, c)).reveal)) (r, c)).adjacent_mines = _
        rw [h1]
        exact hzero
      · show ((Function.update b.cells (r, c) ((b.cells (r, c)).reveal)) (r, c)).is_mine = _
        rw [h1]
        exact hmine)
    (by intro p hp; exact absurd hp (Finset.not_mem_empty p))
    (StepOk.single_reveal b (r, c) hin hhid)
    (by
      intro p hp hrev hhid0 _ _
      right
      rw [List.mem_singleton]
      by_contra hne
      have hrev' : (Function.update b.cells (r, c) ((b.cells (r, c)).reveal) p).state =
          CellState.Revealed := hrev
      rw [hb2cell p, if_neg hne] at hrev'
      rw [hrev'] at hhid0
      cases hhid0)
    (by
      intro p hp hrev hhid0
      have hpe : p = (r, c) := by
        by_contra hne
        have hrev' : (Function.update b.cells (r, c) ((b.cells (r, c)).reveal) p).state =
            CellState.Revealed := hrev
        rw [hb2cell p, if_neg hne] at hrev'
        rw [hrev'] at hhid0
        cases hhid0
      subst hpe
      exact Relation.ReflTransGen.refl)
    (by
      intro p hp hrev hhid0
      left
      by_contra hne
      have hrev' : (Function.update b.cells (r, c) ((b.cells (r, c)).reveal) p).state =
          CellState.Revealed := hrev
      rw [hb2cell p, if_neg hne] at hrev'
      rw [hrev'] at hhid0
      cases hhid0)
  have hstepB2 : StepOk b.width b.height
      { b with cells := Function.update b.cells (r, c) ((b.cells (r, c)).reveal),
               revealed_count := b.revealed_count + 1 }
      (flood_loop b.width b.height (10 * (b.width * b.height + 1))
        { b with cells := Function.update b.cells (r, c) ((b.cells (r, c)).reveal),
                 revealed_count := b.revealed_count + 1 } [(r, c)] ∅) :=
    flood_loop_stepOk b.width b.height _ _ _ _
      (by intro q hq; simp only [List.mem_singleton] at hq; subst hq; exact hin)
  refine ⟨rfl, ?_, ?_, ?_, ?_, hstepF.count_eq⟩
  · rw [mem_newlyRevealed]
    refine ⟨hin, hhid, ?_⟩
    refine hstepB2.revealed_persist ?_
    show ((Function.update b.cells (r, c) ((b.cells (r, c)).reveal)) (r, c)).state = _
    rw [hb2cell (r, c), if_pos rfl]
  · intro p hp
    rw [mem_newlyRevealed] at hp
    exact hconnF p hp.1 hp.2.2 hp.2.1
  · intro p hp hadj0 q hq
    rw [mem_newlyRevealed] at hp
    have hpmine : ((flood_loop b.width b.height (10 * (b.width * b.height + 1))
        { b with cells := Function.update b.cells (r, c) ((b.cells (r, c)).reveal),
                 revealed_count := b.revealed_count + 1 } [(r, c)] ∅).cells p).is_mine
        = false := by
      rcases hwitF p hp.1 hp.2.2 hp.2.1 with hpe | ⟨a, hain, haadj, _, hazero, hamine, _⟩
      · subst hpe
        rw [hstepF.mine_eq]
        exact hmine
      · -- `a` is an empty non-mine cell next to `p`, so `p` is not a mine
        have hbmine : (b.cells a).is_mine = false := by
          rw [← hstepF.mine_eq a]
          exact hamine
        have hbzero : (b.cells a).adjacent_mines = 0 := by
          rw [← hstepF.adj_eq a]
          exact hazero
        have hcount := hcons a hain hbmine
        rw [hbzero] at hcount
        have hzero_count := List.countP_eq_zero.1 hcount.symm
        have hpadj : p ∈ get_adjacent_positions a.1 a.2 b.width b.height := by
          rw [mem_get_adjacent]
          refine ⟨(mem_allPos.1 hp.1).1, (mem_allPos.1 hp.1).2, ?_⟩
          simpa using haadj
        have := hzero_count p hpadj
        rw [hstepF.mine_eq p]
        simpa using this
    exact hboundary p hp.1 hp.2.2 hp.2.1 hadj0 hpmine q hq
  · intro p hflag
    exact (hstepF.flagged_iff p).2 hflag

theorem claim_C4_witness :
    (((Board.init 5 1 1).reveal_cell 0 3 {(0, 4)}).1.reveal_cell 0 0 ∅).2 = true ∧
    (0, 0) ∈ newlyRevealed ((Board.init 5 1 1).reveal_cell 0 3 {(0, 4)}).1.width
      ((Board.init 5 1 1).reveal_cell 0 3 {(0, 4)}).1.height
      ((Board.init 5 1 1).reveal_cell 0 3 {(0, 4)}).1
      (((Board.init 5 1 1).reveal_cell 0 3 {(0, 4)}).1.reveal_cell 0 0 ∅).1 ∧
    ConnectedIn (newlyRevealed ((Board.init 5 1 1).reveal_cell 0 3 {(0, 4)}).1.width
      ((Board.init 5 1 1).reveal_cell 0 3 {(0, 4)}).1.height
      ((Board.init 5 1 1).reveal_cell 0 3 {(0, 4)}).1
      (((Board.init 5 1 1).reveal_cell 0 3 {(0, 4)}).1.reveal_cell 0 0 ∅).1) (0, 0) (0, 2) ∧
    (((Board.init 5 1 1).reveal_cell 0 3 {(0, 4)}).1.reveal_cell 0 0 ∅).1.revealed_count =
      ((Board.init 5 1 1).reveal_cell 0 3 {(0, 4)}).1.revealed_count +
        (newlyRevealed ((Board.init 5 1 1).reveal_cell 0 3 {(0, 4)}).1.width
          ((Board.init 5 1 1).reveal_cell 0 3 {(0, 4)}).1.height
          ((Board.init 5 1 1).reveal_cell 0 3 {(0, 4)}).1
          (((Board.init 5 1 1).reveal_cell 0 3 {(0, 4)}).1.reveal_cell 0 0 ∅).1).card := by
  have h := claim_C4 ((Board.init 5 1 1).reveal_cell 0 3 {(0, 4)}).1 0 0 ∅
    (by decide) (by decide) (by decide) (by decide) (by decide) (by decide)
  exact ⟨h.1, h.2.1, h.2.2.1 (0, 2) (by decide), h.2.2.2.2.2⟩

/-! ### Claims C5 and C6: chord expansion -/

/-- C5: for every in-bounds position, `expand_adjacent_cells` returns the
empty set and the unchanged board whenever the target is not Revealed, or
has `adjacent_mines = 0`, or the flagged count among its in-bounds neighbors
differs from its `adjacent_mines` (the chord gate). -/
theorem claim_C5 (b : Board) (row col : Nat) (mines : Finset (Nat × Nat))
    (hin : (row, col) ∈ allPos b.width b.height)
    (hgate : ¬ (b.cells (row, col)).is_revealed = true ∨
      (b.cells (row, col)).adjacent_mines = 0 ∨
      (get_adjacent_positions row col b.width b.height).countP
        (fun q => (b.cells q).is_flagged) ≠ (b.cells (row, col)).adjacent_mines) :
    b.expand_adjacent_cells row col mines = (b, ∅) := by
  have hb := mem_allPos.1 hin
  have hv : validate_position row col b.width b.height = true :=
    validate_position_iff.2 ⟨hb.1, hb.2⟩
  simp only [Board.expand_adjacent_cells, hv, not_true_eq_false, if_false]
  rcases hgate with hg | hg | hg
  · rw [if_pos (Or.inl hg)]
  · rw [if_pos (Or.inr hg)]
  · by_cases hrev : ¬ (b.cells (row, col)).is_revealed = true ∨
        (b.cells (row, col)).adjacent_mines = 0
    · rw [if_pos hrev]
    · rw [if_neg hrev, if_pos hg]

theorem claim_C5_witness :
    (Board.init 5 1 1).expand_adjacent_cells 0 0 ∅ = (Board.init 5 1 1, ∅) :=
  claim_C5 (Board.init 5 1 1) 0 0 ∅ (by decide) (Or.inl (by decide))

/-- Pointwise state growth: each cell keeps its state or goes from Hidden to
Revealed (this also holds across mine generation, which never touches
states). -/
def StateMono (f g : Nat × Nat → Cell) : Prop :=
  ∀ p, (g p).state = (f p).state ∨
    ((f p).state = CellState.Hidden ∧ (g p).state = CellState.Revealed)

theorem stateMono_refl (f : Nat × Nat → Cell) : StateMono f f := fun _ => Or.inl rfl

theorem stateMono_trans {f g k : Nat × Nat → Cell}
    (h1 : StateMono f g) (h2 : StateMono g k) : StateMono f k := by
  intro p
  rcases h2 p with he | ⟨hh, hr⟩
  · rcases h1 p with he' | ⟨hh', hr'⟩
    · exact Or.inl (he.trans he')
    · exact Or.inr ⟨hh', he ▸ hr'⟩
  · rcases h1 p with he' | ⟨hh', hr'⟩
    · exact Or.inr ⟨he' ▸ hh, hr⟩
    · rw [hr'] at hh
      cases hh

theorem stateMono_hidden_back {f g : Nat × Nat → Cell} (h : StateMono f g)
    {p : Nat × Nat} (hp : (g p).state = CellState.Hidden) :
    (f p).state = CellState.Hidden := by
  rcases h p with he | ⟨_, hr⟩
  · rw [← he, hp]
  · rw [hp] at hr
    cases hr

theorem stateMono_revealed_persist {f g : Nat × Nat → Cell} (h : StateMono f g)
    {p : Nat × Nat} (hp : (f p).state = CellState.Revealed) :
    (g p).state = CellState.Revealed := by
  rcases h p with he | ⟨hh, _⟩
  · rw [he, hp]
  · rw [hp] at hh
    cases hh

theorem StepOk.stateMono {w h : Nat} {b b' : Board} (hs : StepOk w h b b') :
    StateMono b.cells b'.cells := fun p => hs.state_mono p

theorem reveal_cell_stateMono (b : Board) (row col : Nat) (mines : Finset (Nat × Nat)) :
    StateMono b.cells (b.reveal_cell row col mines).1.cells := by
  by_cases hfc : b.first_click = true
  · by_cases hv : validate_position row col b.width b.height = true
    · by_cases hcr : (b.cells (row, col)).can_reveal = true
      · have hhid : (b.cells (row, col)).state = CellState.Hidden := Cell.can_reveal_iff.1 hcr
        have hin : (row, col) ∈ allPos b.width b.height :=
          mem_allPos.2 (validate_position_iff.1 hv)
        simp only [Board.reveal_cell, hv, not_true_eq_false, if_false, hcr,
          not_false_eq_true, if_true, hfc]
        rw [apply_ite (Prod.fst : Board × Bool → Board)]
        obtain ⟨hw, hh, _, _, _, _⟩ := generate_mines_fields b row col mines
        have hin1 : (row, col) ∈ allPos
            ({ b.generate_mines row col mines with first_click := false } : Board).width
            ({ b.generate_mines row col mines with first_click := false } : Board).height := by
          show (row, col) ∈ allPos (b.generate_mines row col mines).width
            (b.generate_mines row col mines).height
          rw [hw, hh]
          exact hin
        have hhid1 : (({ b.generate_mines row col mines with first_click := false } : Board).cells
            (row, col)).state = CellState.Hidden := by
          show ((b.generate_mines row col mines).cells (row, col)).state = CellState.Hidden
          rw [generate_mines_state_eq]
          exact hhid
        have hstep := (reveal_cell_after_gen _ row col hin1 hhid1).1
        have hgen : StateMono b.cells
            ({ b.generate_mines row col mines with first_click := false } : Board).cells := by
          intro p
          left
          show ((b.generate_mines row col mines).cells p).state = _
          rw [generate_mines_state_eq]
        exact stateMono_trans hgen hstep.stateMono
      · simp only [Board.reveal_cell, hv, not_true_eq_false, if_false, hcr,
          not_false_eq_true, if_true]
        exact stateMono_refl _
    · simp only [Board.reveal_cell, hv]
      simp only [Bool.not_eq_true] at hv
      simp [hv]
      exact stateMono_refl _
  · simp only [Bool.not_eq_true] at hfc
    exact (reveal_cell_stepOk b row col mines hfc).stateMono

theorem reveal_cell_success (b : Board) (row col : Nat) (mines : Finset (Nat × Nat))
    (hsucc : (b.reveal_cell row col mines).2 = true) :
    (b.cells (row, col)).state = CellState.Hidden ∧
    ((b.reveal_cell row col mines).1.cells (row, col)).state = CellState.Revealed := by
  by_cases hv : validate_position row col b.width b.height = true
  · by_cases hcr : (b.cells (row, col)).can_reveal = true
    · have hhid : (b.cells (row, col)).state = CellState.Hidden := Cell.can_reveal_iff.1 hcr
      have hin : (row, col) ∈ allPos b.width b.height :=
        mem_allPos.2 (validate_position_iff.1 hv)
      refine ⟨hhid, ?_⟩
      by_cases hfc : b.first_click = true
      · simp only [Board.reveal_cell, hv, not_true_eq_false, if_false, hcr,
          not_false_eq_true, if_true, hfc]
        rw [apply_ite (Prod.fst : Board × Bool → Board)]
        obtain ⟨hw, hh, _, _, _, _⟩ := generate_mines_fields b row col mines
        have hin1 : (row, col) ∈ allPos
            ({ b.generate_mines row col mines with first_click := false } : Board).width
            ({ b.generate_mines row col mines with first_click := false } : Board).height := by
          show (row, col) ∈ allPos (b.generate_mines row col mines).width
            (b.generate_mines row col mines).height
          rw [hw, hh]
          exact hin
        have hhid1 : (({ b.generate_mines row col mines with first_click := false } : Board).cells
            (row, col)).state = CellState.Hidden := by
          show ((b.generate_mines row col mines).cells (row, col)).state = CellState.Hidden
          rw [generate_mines_state_eq]
          exact hhid
        exact (reveal_cell_after_gen _ row col hin1 hhid1).2
      · simp only [Bool.not_eq_true] at hfc
        have hb1 : (if b.first_click = true then
            { b.generate_mines row col mines with first_click := false } else b) = b := by
          rw [hfc]
          simp
        simp only [Board.reveal_cell, hv, not_true_eq_false, if_false, hcr,
          not_false_eq_true, if_true, hb1]
        rw [apply_ite (Prod.fst : Board × Bool → Board)]
        exact (reveal_cell_after_gen b row col hin hhid).2
    · exfalso
      simp only [Board.reveal_cell, hv, not_true_eq_false, if_false, hcr,
        not_false_eq_true, if_true] at hsucc
      cases hsucc
  · exfalso
    simp only [Board.reveal_cell, hv] at hsucc
    simp only [Bool.not_eq_true] at hv
    simp [hv] at hsucc

theorem expand_fold_spec (mines : Finset (Nat × Nat)) :
    ∀ (l : List (Nat × Nat)) (st : Board × Finset (Nat × Nat)),
    StateMono st.1.cells ((l.foldl
      (fun acc q =>
        let res := acc.1.reveal_cell q.1 q.2 mines
        if res.2 then (res.1, insert q acc.2) else (res.1, acc.2)) st)).1.cells ∧
    ∀ q, q ∈ ((l.foldl
      (fun acc q =>
        let res := acc.1.reveal_cell q.1 q.2 mines
        if res.2 then (res.1, insert q acc.2) else (res.1, acc.2)) st)).2 →
      q ∈ st.2 ∨ (q ∈ l ∧ (st.1.cells q).state = CellState.Hidden ∧
        (((l.foldl
          (fun acc q =>
            let res := acc.1.reveal_cell q.1 q.2 mines
            if res.2 then (res.1, insert q acc.2) else (res.1, acc.2)) st)).1.cells q).state =
          CellState.Revealed) := by
  intro l
  induction l with
  | nil =>
    intro st
    exact ⟨stateMono_refl _, fun q hq => Or.inl hq⟩
  | cons q0 l' ih =>
    intro st
    rw [List.foldl_cons]
    set st' : Board × Finset (Nat × Nat) :=
      (let res := st.1.reveal_cell q0.1 q0.2 mines
       if res.2 then (res.1, insert q0 st.2) else (res.1, st.2)) with hst'
    obtain ⟨ihmono, ihset⟩ := ih st'
    have hb' : st'.1 = (st.1.reveal_cell q0.1 q0.2 mines).1 := by
      rw [hst']
      simp only
      split_ifs <;> rfl
    have hmono0 : StateMono st.1.cells st'.1.cells := by
      rw [hb']
      exact reveal_cell_stateMono st.1 q0.1 q0.2 mines
    refine ⟨stateMono_trans hmono0 ihmono, ?_⟩
    intro q hq
    rcases ihset q hq with hq' | ⟨hqL, hqhid, hqrev⟩
    · -- q was already in the set after the first step
      rw [hst'] at hq'
      simp only at hq'
      by_cases hsucc : (st.1.reveal_cell q0.1 q0.2 mines).2 = true
      · rw [if_pos hsucc] at hq'
        rcases Finset.mem_insert.1 hq' with rfl | hq''
        · right
          obtain ⟨hhid, hrev⟩ := reveal_cell_success st.1 q.1 q.2 mines hsucc
          have heta : (q.1, q.2) = q := rfl
          rw [heta] at hhid hrev
          refine ⟨List.mem_cons_self _ _, hhid, ?_⟩
          apply stateMono_revealed_persist ihmono
          rw [hb']
          exact hrev
        · exact Or.inl hq''
      · rw [if_neg hsucc] at hq'
        exact Or.inl hq'
    · right
      refine ⟨List.mem_cons_of_mem _ hqL, stateMono_hidden_back hmono0 hqhid, hqrev⟩

/-- C6 (amended): the set returned by `expand_adjacent_cells` contains only
direct neighbors of the target; every returned position was Hidden before
the call and is Revealed after it.  It does NOT in general equal the set of
all positions newly revealed by the call: positions revealed transitively by
cascading flood fills (and neighbors revealed by an earlier neighbor's
cascade) are not included — see `claim_C6_counterexample`. -/
theorem claim_C6 (b : Board) (row col : Nat) (mines : Finset (Nat × Nat)) :
    ∀ q, q ∈ (b.expand_adjacent_cells row col mines).2 →
      q ∈ get_adjacent_positions row col b.width b.height ∧
      (b.cells q).state = CellState.Hidden ∧
      ((b.expand_adjacent_cells row col mines).1.cells q).state = CellState.Revealed := by
  intro q hq
  by_cases hv : validate_position row col b.width b.height = true
  · simp only [Board.expand_adjacent_cells, hv, not_true_eq_false, if_false] at hq ⊢
    by_cases hgate1 : ¬ (b.cells (row, col)).is_revealed = true ∨
        (b.cells (row, col)).adjacent_mines = 0
    · rw [if_pos hgate1] at hq
      exact absurd hq (Finset.not_mem_empty q)
    · rw [if_neg hgate1] at hq ⊢
      by_cases hgate2 : (get_adjacent_positions row col b.width b.height).countP
          (fun q => (b.cells q).is_flagged) ≠ (b.cells (row, col)).adjacent_mines
      · rw [if_pos hgate2] at hq
        exact absurd hq (Finset.not_mem_empty q)
      · rw [if_neg hgate2] at hq ⊢
        obtain ⟨hmono, hset⟩ := expand_fold_spec mines
          ((get_adjacent_positions row col b.width b.height).filter
            (fun q => !(b.cells q).is_flagged && (b.cells q).is_hidden)) (b, ∅)
        rcases hset q hq with hcon | ⟨hqL, hqhid, hqrev⟩
        · exact absurd hcon (Finset.not_mem_empty q)
        · exact ⟨List.mem_of_mem_filter hqL, hqhid, hqrev⟩
  · simp only [Board.expand_adjacent_cells, hv] at hq
    simp only [Bool.not_eq_true] at hv
    simp [hv] at hq

/-- C6 counterexample: on a 5×1 board with its mine at `(0, 4)` flagged and
the "1" cell `(0, 3)` revealed, chording `(0, 3)` reveals `(0, 2)` directly
and then `(0, 1)`, `(0, 0)` through the cascading flood fill, but the
returned set contains only the directly revealed neighbor `(0, 2)` — not the
set of ALL positions that changed Hidden → Revealed during the call. -/
theorem claim_C6_counterexample :
    (((((Board.init 5 1 1).reveal_cell 0 3 {(0, 4)}).1.flag_cell 0 4).1.expand_adjacent_cells
        0 3 ∅).2 = {(0, 2)}) ∧
    newlyRevealed (((Board.init 5 1 1).reveal_cell 0 3 {(0, 4)}).1.flag_cell 0 4).1.width
      (((Board.init 5 1 1).reveal_cell 0 3 {(0, 4)}).1.flag_cell 0 4).1.height
      (((Board.init 5 1 1).reveal_cell 0 3 {(0, 4)}).1.flag_cell 0 4).1
      ((((Board.init 5 1 1).reveal_cell 0 3 {(0, 4)}).1.flag_cell 0 4).1.expand_adjacent_cells
        0 3 ∅).1 = {(0, 0), (0, 1), (0, 2)} ∧
    ((((Board.init 5 1 1).reveal_cell 0 3 {(0, 4)}).1.flag_cell 0 4).1.expand_adjacent_cells
        0 3 ∅).2 ≠
      newlyRevealed (((Board.init 5 1 1).reveal_cell 0 3 {(0, 4)}).1.flag_cell 0 4).1.width
        (((Board.init 5 1 1).reveal_cell 0 3 {(0, 4)}).1.flag_cell 0 4).1.height
        (((Board.init 5 1 1).reveal_cell 0 3 {(0, 4)}).1.flag_cell 0 4).1
        ((((Board.init 5 1 1).reveal_cell 0 3 {(0, 4)}).1.flag_cell 0 4).1.expand_adjacent_cells
          0 3 ∅).1 := by
  decide

theorem claim_C6_witness :
    (0, 2) ∈ get_adjacent_positions 0 3
      (((Board.init 5 1 1).reveal_cell 0 3 {(0, 4)}).1.flag_cell 0 4).1.width
      (((Board.init 5 1 1).reveal_cell 0 3 {(0, 4)}).1.flag_cell 0 4).1.height ∧
    ((((Board.init 5 1 1).reveal_cell 0 3 {(0, 4)}).1.flag_cell 0 4).1.cells (0, 2)).state =
      CellState.Hidden ∧
    (((((Board.init 5 1 1).reveal_cell 0 3 {(0, 4)}).1.flag_cell 0 4).1.expand_adjacent_cells
        0 3 ∅).1.cells (0, 2)).state = CellState.Revealed :=
  claim_C6 (((Board.init 5 1 1).reveal_cell 0 3 {(0, 4)}).1.flag_cell 0 4).1 0 3 ∅ (0, 2)
    (by decide)

/-! ### Claims C7 and C10: session layer -/

/-- C7 counterexample: on a session in state NEW, `make_move` with an action
other than "reveal"/"flag" does NOT leave everything unchanged — the
auto-start runs first, so the state becomes PLAYING and `start_time` is
set. -/
theorem claim_C7_counterexample :
    ((GameSession.init ⟨"Custom", 5, 1, 1⟩).make_move 0 0 "wait" ∅ 7).1.state =
      GameState.PLAYING ∧
    (GameSession.init ⟨"Custom", 5, 1, 1⟩).state = GameState.NEW ∧
    ((GameSession.init ⟨"Custom", 5, 1, 1⟩).make_move 0 0 "wait" ∅ 7).1.start_time = some 7 ∧
    (GameSession.init ⟨"Custom", 5, 1, 1⟩).start_time = none ∧
    ((GameSession.init ⟨"Custom", 5, 1, 1⟩).make_move 0 0 "wait" ∅ 7).2 = false := by
  refine ⟨?_, rfl, ?_, rfl, ?_⟩ <;> decide

/-- C7 (amended): calling `make_move` with an action other than
"reveal"/"flag" returns `false`; in state PLAYING nothing at all changes,
while in state NEW the auto-start still fires: the state becomes PLAYING and
`start_time` is set to the current instant, with the board, `moves_count`,
`flags_used` and `end_time` unchanged. -/
theorem claim_C7 (s : GameSession) (row col : Nat) (action : String)
    (mines : Finset (Nat × Nat)) (now : Nat)
    (ha1 : action ≠ "reveal") (ha2 : action ≠ "flag") :
    (s.state = GameState.PLAYING →
      s.make_move row col action mines now = (s, false)) ∧
    (s.state = GameState.NEW →
      s.make_move row col action mines now =
        ({ s with state := GameState.PLAYING, start_time := some now }, false)) := by
  constructor
  · intro hst
    simp only [GameSession.make_move]
    rw [if_neg (fun hcon => hcon.1 hst), if_neg ha1, if_neg ha2,
      if_neg (show ¬ s.state = GameState.NEW by rw [hst]; decide)]
  · intro hst
    simp only [GameSession.make_move]
    rw [if_neg (fun hcon => hcon.2 hst), if_neg ha1, if_neg ha2, if_pos hst]
    simp only [GameSession.start_game]
    rw [if_pos hst]

theorem claim_C7_witness :
    ((GameSession.init ⟨"Custom", 5, 1, 1⟩).start_game 0).make_move 0 0 "wait" ∅ 3 =
      (((GameSession.init ⟨"Custom", 5, 1, 1⟩).start_game 0), false) :=
  (claim_C7 ((GameSession.init ⟨"Custom", 5, 1, 1⟩).start_game 0) 0 0 "wait" ∅ 3
    (by decide) (by decide)).1 (by decide)

/-- C10: the session-level `expand_adjacent` never transitions to LOST: from
PLAYING the state afterwards is PLAYING or WON, even when the chord
expansion revealed a mine (possible with a wrong flag); concretely, on a 5×1
board with the mine at `(0, 4)`, flagging `(0, 2)` and chording `(0, 3)`
reveals the mine, `check_lose_condition` holds on the board, and the session
state is still PLAYING. -/
theorem claim_C10 :
    (∀ (s : GameSession) (row col : Nat) (mines : Finset (Nat × Nat)) (now : Nat),
      s.state = GameState.PLAYING →
      ((s.expand_adjacent row col mines now).1.state = GameState.PLAYING ∨
       (s.expand_adjacent row col mines now).1.state = GameState.WON)) ∧
    ((((GameSession.init ⟨"Custom", 5, 1, 1⟩).make_move 0 3 "reveal" {(0, 4)} 0).1.make_move
        0 2 "flag" ∅ 0).1.expand_adjacent 0 3 ∅ 0).1.board.check_lose_condition = true ∧
    ((((GameSession.init ⟨"Custom", 5, 1, 1⟩).make_move 0 3 "reveal" {(0, 4)} 0).1.make_move
        0 2 "flag" ∅ 0).1.expand_adjacent 0 3 ∅ 0).1.state = GameState.PLAYING := by
  refine ⟨?_, by decide, by decide⟩
  intro s row col mines now hst
  simp only [GameSession.expand_adjacent]
  rw [if_neg (fun hcon => hcon hst)]
  split_ifs
  · exact Or.inr rfl
  · exact Or.inl hst
  · exact Or.inl hst

theorem claim_C10_witness :
    (((((GameSession.init ⟨"Custom", 5, 1, 1⟩).make_move 0 3 "reveal" {(0, 4)} 0).1.make_move
        0 2 "flag" ∅ 0).1.expand_adjacent 0 3 ∅ 0).1.state = GameState.PLAYING ∨
     ((((GameSession.init ⟨"Custom", 5, 1, 1⟩).make_move 0 3 "reveal" {(0, 4)} 0).1.make_move
        0 2 "flag" ∅ 0).1.expand_adjacent 0 3 ∅ 0).1.state = GameState.WON) :=
  claim_C10.1 (((GameSession.init ⟨"Custom", 5, 1, 1⟩).make_move 0 3 "reveal" {(0, 4)} 0).1.make_move
    0 2 "flag" ∅ 0).1 0 3 ∅ 0 (by decide)

/-! ### Claims C8 and C9: validator -/

/-- C8: `validate_board_settings` succeeds exactly when `9 ≤ width ≤ 30`,
`9 ≤ height ≤ 30`, `1 ≤ mine_count < width*height` and the density
`mine_count / (width*height)` is at most `0.25`; in particular it succeeds
on `(9, 9, 10)` and `(20, 20, 100)` (exactly 25%), fails with
`InvalidDimensions` on `(8, 9, 10)` and with `DensityExceeded` on
`(10, 10, 30)`. -/
theorem claim_C8 :
    (∀ w h m : Int, validate_board_settings w h m = .ok true ↔
      (9 ≤ w ∧ w ≤ 30 ∧ 9 ≤ h ∧ h ≤ 30 ∧ 1 ≤ m ∧ m < w * h ∧
        (m : ℚ) / ((w * h : Int) : ℚ) ≤ 0.25)) ∧
    validate_board_settings 9 9 10 = .ok true ∧
    validate_board_settings 8 9 10 = .error .InvalidDimensions ∧
    validate_board_settings 10 10 30 = .error .DensityExceeded ∧
    validate_board_settings 20 20 100 = .ok true := by
  refine ⟨?_, ?_, ?_, ?_, ?_⟩
  · intro w h m
    simp only [validate_board_settings]
    split_ifs with h1 h2 h3 h4 h5
    · constructor
      · intro hcon; simp at hcon
      · rintro ⟨c1, c2, _⟩; exfalso; omega
    · constructor
      · intro hcon; simp at hcon
      · rintro ⟨_, _, c3, c4, _⟩; exfalso; omega
    · constructor
      · intro hcon; simp at hcon
      · rintro ⟨_, _, _, _, c5, _⟩; exfalso; omega
    · constructor
      · intro hcon; simp at hcon
      · rintro ⟨_, _, _, _, _, c6, _⟩; exfalso; omega
    · constructor
      · intro hcon; simp at hcon
      · rintro ⟨_, _, _, _, _, _, c7⟩
        exact absurd c7 (not_le.2 h5)
    · constructor
      · intro _
        refine ⟨by omega, by omega, by omega, by omega, by omega, by omega, ?_⟩
        exact le_of_not_lt h5
      · intro _
        rfl
  · simp only [validate_board_settings]
    norm_num
  · simp only [validate_board_settings]
    norm_num
  · simp only [validate_board_settings]
    norm_num
  · simp only [validate_board_settings]
    norm_num

/-- C9 counterexample: on a 9×13 board (117 cells) the code computes
`int(117 * 0.15) = 17` (truncation), while the claimed formula
`clamp(round(117 * 0.15), 1, 116) = round(17.55) = 18`. -/
theorem claim_C9_counterexample :
    suggest_reasonable_settings 9 13 ≠
      min (max (round (((9 * 13 : Int) : ℚ) * 0.15)) 1) (9 * 13 - 1) := by
  have h1 : suggest_reasonable_settings 9 13 = 17 := by decide
  have h2 : round (((9 * 13 : Int) : ℚ) * 0.15) = 18 := by
    rw [round_eq]
    norm_num
  rw [h1, h2]
  norm_num

/-- C9 (amended): for `0 ≤ width*height ≤ 90000` (the range on which the
exact-integer model of `int(total_cells * 0.15)` provably coincides with the
IEEE-double computation, comfortably covering the validated board range of at
most 900 cells), `suggest_reasonable_settings` equals
`clamp(⌊width*height*0.15⌋, 1, width*height - 1)` — the code truncates
`width*height*0.15` instead of rounding it to the nearest integer. -/
theorem claim_C9 (w h : Int) (hnn : 0 ≤ w * h) (hub : w * h ≤ 90000) :
    suggest_reasonable_settings w h =
      min (max (⌊((w * h : Int) : ℚ) * 0.15⌋) 1) (w * h - 1) := by
  simp only [suggest_reasonable_settings]
  have h015 : ((w * h : Int) : ℚ) * 0.15 = ((3 * (w * h) : Int) : ℚ) / ((20 : ℕ) : ℚ) := by
    push_cast
    ring
  rw [h015, Rat.floor_intCast_div_natCast]
  rw [Int.tdiv_eq_ediv (by omega) (by omega)]
  rw [max_comm]
  rfl

theorem claim_C9_witness :
    (0 : Int) ≤ 9 * 13 ∧ (9 * 13 : Int) ≤ 90000 ∧
      suggest_reasonable_settings 9 13 =
        min (max (⌊((9 * 13 : Int) : ℚ) * 0.15⌋) 1) (9 * 13 - 1) :=
  ⟨by decide, by decide, claim_C9 9 13 (by decide) (by decide)⟩
